import Mathlib

set_option maxRecDepth 100000

/-!
Verification of the `cjs` package (CommonJS export analysis and require
rewriting) against its specification.  The definitions below are a shallow
embedding of `src/exports.go` and `src/requires.go`; the external syntax-tree
provider (`github.com/tdewolff/parse/v2/js`) is modelled by an explicit AST
type following the node kinds the package inspects.  Go strings are modelled
as `List Char` (one element per byte for the ASCII inputs considered here).
-/

namespace Cjs

/-! ## Basic string utilities -/

/-- Bytewise (codepoint-wise) lexicographic order on character lists,
matching Go's `string` comparison used by `sort.Strings`. -/
def lexLe : List Char → List Char → Bool
  | [], _ => true
  | _ :: _, [] => false
  | a :: s, b :: t =>
    if a.toNat < b.toNat then true
    else if b.toNat < a.toNat then false
    else lexLe s t

/-- Lexicographic order on strings (Go `a <= b`). -/
def strLe (a b : String) : Bool := lexLe a.data b.data

/-- Insert a string into a lexicographically sorted list. -/
def sortIns (x : String) : List String → List String
  | [] => [x]
  | y :: t => if strLe x y then x :: y :: t else y :: sortIns x t

/-- Embedding of Go's `sort.Strings`: the ascending lexicographic reordering
of a list.  (A sorted permutation is unique as a list, so insertion sort is an
exact model of Go's sort.) -/
def sortStrings : List String → List String
  | [] => []
  | x :: t => sortIns x (sortStrings t)

/-- Set-style insert used to model Go's `map[string]bool`:
`m[k] = true` adds the key if absent. -/
def setInsert (x : String) (l : List String) : List String :=
  if x ∈ l then l else l ++ [x]

/-- Go's `delete(m, k)` on a `map[string]bool` modelled as a list-set. -/
def setDelete (x : String) (l : List String) : List String :=
  l.filter (fun y => y ≠ x)

/-! ## The literal and escape decoder (`unescapeJSString`, src/exports.go) -/

/-- Octal digit test (`s[i] >= '0' && s[i] <= '7'`). -/
def isOctalDigit (c : Char) : Bool := '0' ≤ c ∧ c ≤ '7'

/-- Hexadecimal digit test, as accepted by `fmt.Sscanf` with verb `%x`. -/
def isHexDigit (c : Char) : Bool :=
  ('0' ≤ c ∧ c ≤ '9') ∨ ('a' ≤ c ∧ c ≤ 'f') ∨ ('A' ≤ c ∧ c ≤ 'F')

/-- Value of a hexadecimal digit. -/
def hexDigitVal (c : Char) : Nat :=
  if '0' ≤ c ∧ c ≤ '9' then c.toNat - '0'.toNat
  else if 'a' ≤ c ∧ c ≤ 'f' then c.toNat - 'a'.toNat + 10
  else if 'A' ≤ c ∧ c ≤ 'F' then c.toNat - 'A'.toNat + 10
  else 0

/-- Whitespace skipped by `fmt.Sscanf` before scanning a number. -/
def isGoSpace (c : Char) : Bool :=
  c = ' ' ∨ c = '\t' ∨ c = '\n' ∨ c = '\x0b' ∨ c = '\x0c' ∨ c = '\r'

/-- The blanks of fmt's skip loop: tab, vertical tab, form feed, carriage
return, space.  A newline is handled separately (it is an error for
`Sscanf`, whose format string contains no newline). -/
def isFmtSpace (c : Char) : Bool :=
  c = '\t' ∨ c = '\x0b' ∨ c = '\x0c' ∨ c = '\r' ∨ c = ' '

/-- fmt's `ss.SkipSpace` with `nlIsSpace = false`: skip blanks; a newline
(also one reached through a preceding `\r`) is an "unexpected newline"
error, modelled as `none`.  (Over the ASCII alphabet exercised here;
fmt additionally skips U+0085 and U+00A0.) -/
def fmtSkipSpace : List Char → Option (List Char)
  | [] => some []
  | '\r' :: '\n' :: _ => none
  | '\n' :: _ => none
  | c :: t => if isFmtSpace c then fmtSkipSpace t else some (c :: t)

/-- The digit scan of fmt's `scanInt` after the optional sign: the maximal
run of hex digits (none at all is an "expected integer" error, leaving
`val` at `0`), parsed by `strconv.ParseInt` with bit size 64 (a range
error also leaves `val` at `0`). -/
def goScanHexDigits (neg : Bool) (t : List Char) : Int :=
  let ds := t.takeWhile isHexDigit
  if ds = [] then 0
  else
    let v : Int := (ds.foldl (fun a c => a * 16 + hexDigitVal c) 0 : Nat)
    if neg then (if 9223372036854775808 < v then 0 else -v)
    else (if 9223372036854775807 < v then 0 else v)

/-- Model of `fmt.Sscanf(s, "%x", &val)` into an `int`: skip leading blanks
(a newline is an error), accept an optional sign, then read hex digits;
on any scan error `val` keeps its zero value. -/
def goScanHexInt (l : List Char) : Int :=
  match fmtSkipSpace l with
  | none => 0
  | some l1 =>
    match l1 with
    | '-' :: t => goScanHexDigits true t
    | '+' :: t => goScanHexDigits false t
    | t => goScanHexDigits false t

/-- Model of `fmt.Sscanf(s, "%o", &val)` as it behaves on the decoder's
octal escapes: the argument is always a nonempty run of octal digits
(guaranteed by the branch conditions of `unescapeJSString`), for which
the scan returns exactly the octal value. -/
def octScan (l : List Char) : Nat :=
  ((l.dropWhile isGoSpace).takeWhile isOctalDigit).foldl
    (fun a c => a * 8 + hexDigitVal c) 0

/-- Go's `rune(val)` on an `int` value, as it behaves once the rune list is
converted back to a string: the conversion truncates to a signed 32-bit
value (two's complement), and an invalid code point (negative, surrogate
or out of range) becomes U+FFFD. -/
def mkRune (n : Int) : Char :=
  let r : Int := (n + 2147483648) % 4294967296 - 2147483648
  if 0 ≤ r ∧ r < 55296 then Char.ofNat r.toNat
  else if 57344 ≤ r ∧ r < 1114112 then Char.ofNat r.toNat
  else '�'

/-- One iteration of the scanning loop of `unescapeJSString`
(src/exports.go, lines 337-453).  The argument is the suffix of the input
starting at the loop index `i`; the result is the pair of the characters
appended to `result` during this iteration and the number of characters
consumed (the increment of `i`). -/
def uStep : List Char → (List Char × Nat)
  | [] => ([], 1)
  | c :: rest =>
    if c ≠ '\\' then ([c], 1)
    else
      match rest with
      | [] => (['\\'], 1)   -- i+1 >= len(s): append '\' and stop
      | e :: r2 =>
        match e with
        | 'n' => (['\n'], 2)
        | 't' => (['\t'], 2)
        | 'r' => (['\r'], 2)
        | 'b' => (['\x08'], 2)
        | 'f' => (['\x0c'], 2)
        | 'v' => (['\x0b'], 2)
        | '0' =>
          match r2 with
          | d :: r3 =>
            if isOctalDigit d then
              match r3 with
              | d2 :: _ =>
                if isOctalDigit d2 then ([mkRune (octScan ['0', d, d2])], 4)
                else ([mkRune (octScan ['0', d])], 3)
              | [] => ([mkRune (octScan ['0', d])], 3)
            else (['\x00'], 2)
          | [] => (['\x00'], 2)
        | '1' => uOct '1' r2
        | '2' => uOct '2' r2
        | '3' => uOct '3' r2
        | '4' => uOct '4' r2
        | '5' => uOct '5' r2
        | '6' => uOct '6' r2
        | '7' => uOct '7' r2
        | 'x' =>
          match r2 with
          | c1 :: c2 :: _ => ([mkRune (goScanHexInt [c1, c2])], 4)
          | _ => (['x'], 2)   -- truncated: emit 'x', advance past \x only
        | 'u' =>
          match r2 with
          | '{' :: t =>
            if (t.dropWhile (fun c => c ≠ '}')) = [] then (['u'], 2)
            else ([mkRune (goScanHexInt (t.takeWhile (fun c => c ≠ '}')))],
                  4 + (t.takeWhile (fun c => c ≠ '}')).length)
          | c1 :: c2 :: c3 :: c4 :: _ =>
            ([mkRune (goScanHexInt [c1, c2, c3, c4])], 6)
          | _ => (['u'], 2)
        | '\\' => (['\\'], 2)
        | '\'' => (['\''], 2)
        | '"' => (['"'], 2)
        | other => ([other], 2)   -- unknown escape: keep the character
where
  /-- Octal escape starting with a digit `'1'`-`'7'`: up to two further
  octal digits are consumed. -/
  uOct (d : Char) (r2 : List Char) : (List Char × Nat) :=
    match r2 with
    | d2 :: r3 =>
      if isOctalDigit d2 then
        match r3 with
        | d3 :: _ =>
          if isOctalDigit d3 then ([mkRune (octScan [d, d2, d3])], 4)
          else ([mkRune (octScan [d, d2])], 3)
        | [] => ([mkRune (octScan [d, d2])], 3)
      else ([mkRune (octScan [d])], 2)
    | [] => ([mkRune (octScan [d])], 2)



/-- Fueled driver for a character-consuming step machine: runs `step` until
the input is exhausted (or fuel runs out), concatenating the emitted
characters; `(step l).2` is how far the scan position advances. -/
def consume (step : List Char → (List Char × Nat)) : Nat → List Char → List Char
  | 0, _ => []
  | _ + 1, [] => []
  | n + 1, c :: t =>
    (step (c :: t)).1 ++ consume step n ((c :: t).drop (step (c :: t)).2)


/-- Model of `unescapeJSString` on a character list: the scanning loop consumes at
least one character per iteration, so `length + 1` iterations always finish. -/
def unescapeList (l : List Char) : List Char :=
  consume uStep (l.length + 1) l

/-- Model of `unescapeJSString` (src/exports.go): decode JavaScript escape sequences. -/
def unescapeJSString (s : String) : String :=
  String.mk (unescapeList s.data)

/-! ## The syntax tree

Modelled from the spec: the syntax-tree provider (`tdewolff/parse/v2/js`) is
an external collaborator, not part of this repository; §6 of the spec fixes
the contract this core needs from it (node kinds, literal raw text, walk
order).  The constructors below mirror exactly the node kinds inspected by
`src/exports.go` and `src/requires.go`: `Var`, `LiteralExpr` (raw token
text, quotes included for string literals), `DotExpr`, `IndexExpr`,
`CallExpr`, `NewExpr`, `BinaryExpr`, `ObjectExpr`, `FuncDecl`, `ArrowFunc`,
`MethodDecl`, `PropertyName` (literal or computed; shorthand properties
carry their identifier as the property name, per §4.2/§6), and the statement
kinds relevant to traversal and directive extraction.  A depth-first walk
calls the visitor's `Enter` on every node, parents before children,
children in syntactic order. -/

mutual
inductive Expr where
  | evar (data : String)
  | lit (data : String)
  | dot (x : Expr) (y : Expr)
  | idx (x : Expr) (y : Expr)
  | call (x : Expr) (args : ExprList)
  | newE (x : Expr) (args : ExprList)
  | binary (isEq : Bool) (x : Expr) (y : Expr)
  | unary (x : Expr)
  | object (props : PropList)
  | funcE (body : StmtList)
  | arrowE (body : StmtList)
  | methodE (name : PName) (isGet : Bool) (body : StmtList)

inductive PName where
  | missing
  | unset
  | plit (raw : String)
  | computed (e : Expr)

inductive Property where
  | mk (name : PName) (spread : Bool) (value : Expr)

inductive PropList where
  | nil
  | cons (p : Property) (rest : PropList)

inductive ExprList where
  | nil
  | cons (e : Expr) (rest : ExprList)

inductive Stmt where
  | exprS (e : Expr)
  | varDecl (inits : ExprList)
  | retS (e : Expr)
  | retNone
  | directive (raw : String)
  | comment (raw : String)
  | importS (binding : String) (path : String)
  | ifS (cond : Expr) (thenB : StmtList) (elseB : StmtList)
  | throwS (e : Expr)
  | blockS (body : StmtList)
  | funcS (body : StmtList)

inductive StmtList where
  | nil
  | cons (s : Stmt) (rest : StmtList)
end

/-! ## The export surface analyzer (src/exports.go) -/

/-- The `exportVisitor` state.  `badGetters` is the Go field `unsafeGetters`
(the spec's UnsafeMarks); `err` is the visitor's error field, which the
source declares and checks but never assigns. -/
structure ExpState where
  err : Option String
  exports : List String
  badGetters : List String
  hasDefaultExport : Bool
deriving DecidableEq, Repr

def initExpState : ExpState := ⟨none, [], [], false⟩

/-- Model of `exportVisitor.isExportsIdent`. -/
def isExportsIdent : Expr → Bool
  | .evar d => d = "exports"
  | _ => false

/-- Model of `exportVisitor.isModuleIdent`. -/
def isModuleIdent : Expr → Bool
  | .evar d => d = "module"
  | _ => false

/-- Model of `exportVisitor.isObjectIdent`. -/
def isObjectIdent : Expr → Bool
  | .evar d => d = "Object"
  | _ => false

/-- Model of `exportVisitor.isExportsField`: matches both an identifier and a
literal property name `exports`. -/
def isExportsField : Expr → Bool
  | .evar d => d = "exports"
  | .lit d => d = "exports"
  | _ => false

/-- Model of `exportVisitor.isDefinePropertyField`. -/
def isDefinePropertyField : Expr → Bool
  | .evar d => d = "defineProperty"
  | .lit d => d = "defineProperty"
  | _ => false

/-- Model of `exportVisitor.isModuleExports`: matches `module.exports`. -/
def isModuleExports : Expr → Bool
  | .dot x y => isModuleIdent x && isExportsField y
  | _ => false

/-- The quote-stripping shared by both files: if the raw token text has at
least two characters and matching `"` or `'` quotes, return the inside. -/
def quotedInner (data : String) : Option String :=
  let l := data.data
  if 2 ≤ l.length then
    if (l.head? = some '"' ∧ l.getLast? = some '"') ∨
       (l.head? = some '\'' ∧ l.getLast? = some '\'') then
      some (String.mk ((l.drop 1).dropLast))
    else none
  else none

/-- Model of `exportVisitor.extractStringLiteral`: strip quotes and unescape; every
non-literal (or unquoted) argument yields `""`. -/
def extractStringLiteral : Expr → String
  | .lit data =>
    match quotedInner data with
    | some inner => unescapeJSString inner
    | none => ""
  | _ => ""

/-- Model of `name.Literal.Data` of a `MethodDecl` property name (empty when the
name is computed or unset). -/
def pnameLiteralData : PName → String
  | .plit raw => raw
  | _ => ""

/-- Model of `exportVisitor.extractPropertyName`. -/
def extractPropertyName : PName → String
  | .missing => ""
  | .unset => ""
  | .computed e => extractStringLiteral e
  | .plit raw =>
    match quotedInner raw with
    | some inner => unescapeJSString inner
    | none => raw

/-- The loop body shared by `isSafeGetter` and `isSafeGetterMethod`: some
top-level statement is a `return` of a member access or identifier. -/
def safeRet : StmtList → Bool
  | .nil => false
  | .cons s rest =>
    (match s with
     | .retS v =>
       match v with
       | .dot _ _ => true
       | .idx _ _ => true
       | .evar _ => true
       | _ => false
     | _ => false) || safeRet rest

/-- Model of `exportVisitor.isSafeGetter`: only a `FuncDecl` whose body has a
`return` of a member access or identifier is safe. -/
def isSafeGetter : Expr → Bool
  | .funcE body => safeRet body
  | _ => false

/-- Model of `exportVisitor.extractObjectKeys`: add each resolvable key of an object
literal as an export; spread entries and unresolvable names are skipped. -/
def extractObjectKeys : PropList → ExpState → ExpState
  | .nil, s => s
  | .cons (.mk name spread _) rest, s =>
    if spread then extractObjectKeys rest s
    else
      match name with
      | .missing => extractObjectKeys rest s
      | .unset => extractObjectKeys rest s
      | _ =>
        let keyName := extractPropertyName name
        if keyName ≠ "" then
          extractObjectKeys rest { s with exports := setInsert keyName s.exports }
        else extractObjectKeys rest s

/-- The property loop of `exportVisitor.shouldExportDefineProperty`, with
accumulators `hasGetter`, `hasValue`, `enumerableFalse`.  Returns `none` as
second component when the loop early-returns `false` (unsafe getter, which
also records the name in `badGetters`). -/
def sedProps : PropList → String → ExpState → Bool → Bool → Bool →
    (ExpState × Option (Bool × Bool × Bool))
  | .nil, _, s, hg, hv, ef => (s, some (hg, hv, ef))
  | .cons (.mk name _ value) rest, nm, s, hg, hv, ef =>
    match value with
    | .methodE mname mget mbody =>
      if pnameLiteralData mname = "get" ∨ mget then
        if ¬ safeRet mbody then
          ({ s with badGetters := setInsert nm s.badGetters }, none)
        else sedProps rest nm s true hv ef
      else sedProps rest nm s hg hv ef
    | _ =>
      match name with
      | .missing => sedProps rest nm s hg hv ef
      | .unset => sedProps rest nm s hg hv ef
      | _ =>
        let keyName := extractPropertyName name
        if keyName = "get" then
          if ¬ isSafeGetter value then
            ({ s with badGetters := setInsert nm s.badGetters }, none)
          else sedProps rest nm s true hv ef
        else if keyName = "value" then sedProps rest nm s hg true ef
        else if keyName = "enumerable" then
          (match value with
           | .lit d => if d = "false" then sedProps rest nm s hg hv true
                       else sedProps rest nm s hg hv ef
           | _ => sedProps rest nm s hg hv ef)
        else sedProps rest nm s hg hv ef

/-- Model of `exportVisitor.shouldExportDefineProperty` (src/exports.go 142-201). -/
def shouldExportDefineProperty (props : PropList) (nm : String) (s : ExpState) :
    (ExpState × Bool) :=
  match sedProps props nm s false false false with
  | (s', none) => (s', false)
  | (s', some (hg, hv, ef)) =>
    if nm ∈ s'.badGetters then
      ({ s' with exports := setDelete nm s'.exports }, false)
    else if hg ∧ ef then (s', false)
    else (s', hv ∨ hg)

/-- Model of `exportVisitor.handleAssignment` (src/exports.go 77-118). -/
def handleAssignment (left right : Expr) (s : ExpState) : ExpState :=
  match left with
  | .dot x y =>
    if isExportsIdent x then
      match y with
      | .evar d => { s with exports := setInsert d s.exports }
      | .lit d => { s with exports := setInsert d s.exports }
      | _ => s
    else if isModuleExports x then
      match y with
      | .evar d => { s with exports := setInsert d s.exports }
      | .lit d => { s with exports := setInsert d s.exports }
      | _ => s
    else if isModuleIdent x ∧ isExportsField y then
      let s1 := { s with hasDefaultExport := true }
      match right with
      | .object props => extractObjectKeys props s1
      | _ => s1
    else s
  | .idx x y =>
    if isExportsIdent x ∨ isModuleExports x then
      let nm := extractStringLiteral y
      if nm ≠ "" then { s with exports := setInsert nm s.exports } else s
    else s
  | _ =>
    if isModuleExports left then
      let s1 := { s with hasDefaultExport := true }
      match right with
      | .object props => extractObjectKeys props s1
      | _ => s1
    else s

/-- Model of `exportVisitor.handleCallExpr` (src/exports.go 120-140). -/
def handleCallExpr (x : Expr) (args : ExprList) (s : ExpState) : ExpState :=
  match x with
  | .dot dx dy =>
    if isObjectIdent dx ∧ isDefinePropertyField dy then
      match args with
      | .cons a0 (.cons a1 (.cons a2 _)) =>
        if isExportsIdent a0 ∨ isModuleExports a0 then
          let nm := extractStringLiteral a1
          if nm ≠ "" then
            match a2 with
            | .object props =>
              let r := shouldExportDefineProperty props nm s
              if r.2 then { r.1 with exports := setInsert nm r.1.exports }
              else r.1
            | _ => s
          else s
        else s
      | _ => s
    else s
  | _ => s

/-- Model of `exportVisitor.Enter`: only binary `=` assignments and call
expressions are inspected. -/
def enterExports (e : Expr) (s : ExpState) : ExpState :=
  match e with
  | .binary true x y => handleAssignment x y s
  | .call x args => handleCallExpr x args s
  | _ => s

mutual
/-- Depth-first walk with a visitor (`js.Walk`): `Enter` on each node,
parents before children, children in syntactic order.  Both visitors of the
package only inspect expression nodes in `Enter`, so the visitor action is a
function on expressions and the walk threads the visitor state. -/
def walkE {σ : Type} (enter : Expr → σ → σ) (e : Expr) (s : σ) : σ :=
  let s1 := enter e s
  match e with
  | .evar _ => s1
  | .lit _ => s1
  | .dot x y => walkE enter y (walkE enter x s1)
  | .idx x y => walkE enter y (walkE enter x s1)
  | .call x args => walkEL enter args (walkE enter x s1)
  | .newE x args => walkEL enter args (walkE enter x s1)
  | .binary _ x y => walkE enter y (walkE enter x s1)
  | .unary x => walkE enter x s1
  | .object props => walkPL enter props s1
  | .funcE body => walkSL enter body s1
  | .arrowE body => walkSL enter body s1
  | .methodE name _ body => walkSL enter body (walkPN enter name s1)

def walkPN {σ : Type} (enter : Expr → σ → σ) (n : PName) (s : σ) : σ :=
  match n with
  | .computed e => walkE enter e s
  | _ => s

def walkP {σ : Type} (enter : Expr → σ → σ) (p : Property) (s : σ) : σ :=
  match p with
  | .mk name _ value => walkE enter value (walkPN enter name s)

def walkPL {σ : Type} (enter : Expr → σ → σ) (l : PropList) (s : σ) : σ :=
  match l with
  | .nil => s
  | .cons p rest => walkPL enter rest (walkP enter p s)

def walkEL {σ : Type} (enter : Expr → σ → σ) (l : ExprList) (s : σ) : σ :=
  match l with
  | .nil => s
  | .cons e rest => walkEL enter rest (walkE enter e s)

def walkS {σ : Type} (enter : Expr → σ → σ) (st : Stmt) (s : σ) : σ :=
  match st with
  | .exprS e => walkE enter e s
  | .varDecl inits => walkEL enter inits s
  | .retS e => walkE enter e s
  | .retNone => s
  | .directive _ => s
  | .comment _ => s
  | .importS _ _ => s
  | .ifS c t e => walkSL enter e (walkSL enter t (walkE enter c s))
  | .throwS e => walkE enter e s
  | .blockS b => walkSL enter b s
  | .funcS b => walkSL enter b s

def walkSL {σ : Type} (enter : Expr → σ → σ) (l : StmtList) (s : σ) : σ :=
  match l with
  | .nil => s
  | .cons st rest => walkSL enter rest (walkS enter st s)
end

/-- The full export-visitor walk over a program. -/
def walkExpSL (l : StmtList) (s : ExpState) : ExpState :=
  walkSL enterExports l s

/-- The finalization of `ParseExports` (src/exports.go 32-49): purge names
marked unsafe, append `"default"` if `hasDefaultExport`, sort. -/
def finalizeExports (s : ExpState) : List String :=
  let exps := s.exports.filter (fun n => n ∉ s.badGetters)
  let exps := if s.hasDefaultExport then exps ++ ["default"] else exps
  sortStrings exps

/-- Model of `ParseExports` applied to an already-parsed tree. -/
def parseExportsAst (ast : StmtList) : List String :=
  finalizeExports (walkExpSL ast initExpState)

/-- Model of `ParseExports` (src/exports.go 12-50).  The external parse step is
modelled by the `Except` argument: parsing the (shebang-stripped) source
either fails with a diagnostic or produces a tree. -/
def ParseExports (path : String) (parseResult : Except String StmtList) :
    Except String (List String) :=
  match parseResult with
  | .error msg => .error ("cjs: failed to parse " ++ path ++ ": " ++ msg)
  | .ok ast =>
    let s := walkExpSL ast initExpState
    match s.err with
    | some e => .error e
    | none => .ok (finalizeExports s)

/-! ## Shebang splitting (`extractShebang`, src/exports.go 479-494) -/

/-- Model of `bytes.Split(code, "\n")`. -/
def splitOn (sep : Char) : List Char → List (List Char)
  | [] => [[]]
  | c :: t =>
    match splitOn sep t with
    | [] => [[c]]
    | h :: r => if c = sep then [] :: h :: r else (c :: h) :: r

/-- Model of `bytes.Join(lines, "\n")`. -/
def joinNL : List (List Char) → List Char
  | [] => []
  | [l] => l
  | l :: r => l ++ '\n' :: joinNL r

/-- ASCII whitespace, for `bytes.TrimSpace`. -/
def isTrimWS (c : Char) : Bool :=
  c = ' ' ∨ c = '\t' ∨ c = '\n' ∨ c = '\r' ∨ c = '\x0b' ∨ c = '\x0c'

/-- Model of `bytes.TrimSpace`. -/
def trimSpace (l : List Char) : List Char :=
  ((l.dropWhile isTrimWS).reverse.dropWhile isTrimWS).reverse

/-- The line scan of `extractShebang`: skip blank lines; a first non-blank
line starting with `#!` is the shebang (returned with the lines after it);
any other non-blank first line means there is no shebang. -/
def shebangScan : List (List Char) → Option (List Char × List (List Char))
  | [] => none
  | line :: rest =>
    match trimSpace line with
    | [] => shebangScan rest
    | '#' :: '!' :: _ => some (line, rest)
    | _ => none

/-- Model of `extractShebang` (src/exports.go): returns the shebang line (with a
trailing newline) and the code without it. -/
def extractShebang (code : String) : String × String :=
  match shebangScan (splitOn '\n' code.data) with
  | some (line, rest) => (String.mk (line ++ ['\n']), String.mk (joinNL rest))
  | none => ("", code)

/-! ## The require-hoisting rewriter (src/requires.go) -/

/-- The `requireVisitor` state: the `requires` key set, the
`requireCalls` list of `(funcName, path)` pairs, and `pathOrder`, the
distinct paths in order of first occurrence. -/
structure ReqState where
  requires : List String
  requireCalls : List (String × String)
  pathOrder : List String
deriving DecidableEq, Repr

def initReqState : ReqState := ⟨[], [], []⟩

/-- Model of `extractStringLiteral` (src/requires.go 194-204): strip a matching
quote pair; unlike the exports-side decoder this does NOT unescape, and a
token without surrounding quotes is returned unchanged. -/
def reqStrip (data : String) : String :=
  match quotedInner data with
  | some inner => inner
  | none => data

/-- Model of `strings.HasPrefix`. -/
def goHasPre (s pre : String) : Bool := pre.data.isPrefixOf s.data

/-- Model of `requireVisitor.getFunctionName`: the callee name when the callee is a
simple identifier, `""` otherwise. -/
def getFunctionName : Expr → String
  | .evar d => d
  | _ => ""

/-- Model of `requireVisitor.Enter` (src/requires.go 91-119): a call expression
with exactly one string-literal argument whose (quote-stripped) value
starts with the prefix is recorded. -/
def enterReq (pfx : String) (e : Expr) (s : ReqState) : ReqState :=
  match e with
  | .call x (.cons (.lit data) .nil) =>
    let pathStr := reqStrip data
    if goHasPre pathStr pfx then
      let s1 : ReqState :=
        { s with
          pathOrder :=
            if pathStr ∈ s.requires then s.pathOrder
            else s.pathOrder ++ [pathStr],
          requires := setInsert pathStr s.requires }
      match getFunctionName x with
      | "" => s1
      | fn => { s1 with requireCalls := s1.requireCalls ++ [(fn, pathStr)] }
    else s
  | _ => s

/-- The full require-visitor walk over a program. -/
def walkReqSL (pfx : String) (l : StmtList) (s : ReqState) : ReqState :=
  walkSL (enterReq pfx) l s

/-- Character class of `pathToImportName`'s sanitizer (`[^a-zA-Z0-9_]`). -/
def isWordChar (c : Char) : Bool :=
  ('a' ≤ c ∧ c ≤ 'z') ∨ ('A' ≤ c ∧ c ≤ 'Z') ∨ ('0' ≤ c ∧ c ≤ '9') ∨ c = '_'

/-- Last non-empty `/`-separated segment (the loop of `pathToImportName`). -/
def lastSegment (segs : List (List Char)) : List Char :=
  match segs with
  | [] => []
  | seg :: rest =>
    match lastSegment rest with
    | [] => seg
    | r => r

/-- Model of `pathToImportName` (src/requires.go 131-156). -/
def pathToImportName (path : String) : String :=
  let lastName := lastSegment (splitOn '/' path.data)
  let lastName := if lastName = [] then "module".data else lastName
  let lastName := lastName.map (fun c => if isWordChar c then c else '_')
  let lastName :=
    match lastName with
    | c :: _ => if '0' ≤ c ∧ c ≤ '9' then '_' :: lastName else lastName
    | [] => lastName
  "__cjs_import_" ++ String.mk lastName ++ "__"

/-- Go's `%q` on a path string (quote and escape).  Paths considered here
contain no control or non-ASCII characters, for which `%q` has further
escape forms. -/
def quoteGo (s : String) : String :=
  "\"" ++ String.mk (s.data.foldr
    (fun c acc =>
      if c = '"' then '\\' :: '"' :: acc
      else if c = '\\' then '\\' :: '\\' :: acc
      else c :: acc) []) ++ "\""

/-- The import statements block of `RewriteRequires` (lines 46-57). -/
def importsBlock : List String → String
  | [] => ""
  | p :: rest =>
    "import " ++ pathToImportName p ++ " from " ++ quoteGo p ++ "\n"
      ++ importsBlock rest

/-- The `__cjs_imports__` object mapping entries, separated by `,\n\t`. -/
def objMapping : List String → String
  | [] => ""
  | [p] => quoteGo p ++ ": " ++ pathToImportName p
  | p :: rest => quoteGo p ++ ": " ++ pathToImportName p ++ ",\n\t" ++ objMapping rest

/-- The generated scaffolding (`infrastructure`, src/requires.go 59-70):
imports, lookup table, and the `__cjs_require__` function. -/
def infrastructure (paths : List String) : String :=
  importsBlock paths
    ++ "const __cjs_imports__ = \x7b\n\t" ++ objMapping paths ++ ",\n\x7d\n"
    ++ "function __cjs_require__(path) \x7b\n"
    ++ "\tconst req = __cjs_imports__[path]\n"
    ++ "\tif (!req) \x7b\n"
    ++ "\t\tthrow new Error(\"Module not found: \" + path)\n"
    ++ "\t\x7d\n"
    ++ "\treturn req\n"
    ++ "\x7d\n"

/-! ### The textual call-site substitution (`replaceRequireCalls`) -/

/-- The character class of `\s` in Go's regexp (RE2): `[\t\n\f\r ]`. -/
def isRegexWS (c : Char) : Bool :=
  c = ' ' ∨ c = '\t' ∨ c = '\n' ∨ c = '\x0c' ∨ c = '\r'

/-- Match the regex `funcName\s*\(\s*(["'])prefix` at the head of `l`
(Go regexp finds the leftmost match; the pattern is deterministic because
`(` and the quotes are not whitespace).  On success, returns the quote
character and the number of characters matched. -/
def tryMatch (fn pfx l : List Char) : Option (Char × Nat) :=
  match fn.isPrefixOf l with
  | false => none
  | true =>
    let l1 := l.drop fn.length
    let w1 := (l1.takeWhile isRegexWS).length
    match l1.dropWhile isRegexWS with
    | '(' :: l3 =>
      let w2 := (l3.takeWhile isRegexWS).length
      match l3.dropWhile isRegexWS with
      | q :: l5 =>
        if q = '"' ∨ q = '\'' then
          match pfx.isPrefixOf l5 with
          | false => none
          | true => some (q, fn.length + w1 + 1 + w2 + 1 + pfx.length)
        else none
      | [] => none
    | _ => none

/-- One step of the scanning substitution: replace a leftmost match of
`funcName\s*\(\s*(["'])prefix` by `__cjs_require__(` + quote + prefix,
otherwise move one character forward. -/
def rrStep (fn pfx : List Char) (l : List Char) : (List Char × Nat) :=
  match tryMatch fn pfx l with
  | some (q, n) => (("__cjs_require__(").data ++ q :: pfx, n)
  | none =>
    match l with
    | [] => ([], 1)
    | c :: _ => ([c], 1)

/-- The substitution for one callee name, over the whole text. -/
def replaceOneL (fn pfx l : List Char) : List Char :=
  consume (rrStep fn pfx) (l.length + 1) l

/-- The distinct callee names of the recorded calls, in first-occurrence
order (the source iterates a Go map whose order is unspecified; for a
single callee name, as in every theorem below, the order is immaterial). -/
def calleeNames (calls : List (String × String)) : List String :=
  calls.foldl (fun acc c => setInsert c.1 acc) []

/-- Model of `replaceRequireCalls` (src/requires.go 159-191). -/
def replaceRequireCalls (source : String) (calls : List (String × String))
    (pfx : String) : String :=
  String.mk ((calleeNames calls).foldl
    (fun acc fn => replaceOneL fn.data pfx.data acc) source.data)

/-! ### Directive extraction (`extractDirectivesString`, src/requires.go) -/

/-- The count of leading `DirectivePrologueStmt` nodes (comments are
skipped; anything else stops the count). -/
def countDirectives : StmtList → Nat
  | .nil => 0
  | .cons s rest =>
    match s with
    | .directive _ => countDirectives rest + 1
    | .comment _ => countDirectives rest
    | _ => 0

/-- Whitespace skipped at the top of each directive-scan iteration
(space, tab, newline, carriage return). -/
def isDirWS (c : Char) : Bool :=
  c = ' ' ∨ c = '\t' ∨ c = '\n' ∨ c = '\r'

/-- Space or tab only (skipped between a closing quote and `;`). -/
def isST (c : Char) : Bool := c = ' ' ∨ c = '\t'

/-- The inner quote scan: consume up to and including the closing quote,
skipping a character after each backslash.  Returns the consumed
characters and the remainder.  (For input whose leading statement really
is a directive the quote is always found; on exhaustion Go would slice out
of range, the model returns the empty remainder.) -/
def scanQ (q : Char) : List Char → (List Char × List Char)
  | [] => ([], [])
  | c :: t =>
    if c = q then ([c], t)
    else if c = '\\' then
      match t with
      | [] => ([c], [])
      | c2 :: t2 =>
        let r := scanQ q t2
        (c :: c2 :: r.1, r.2)
    else
      let r := scanQ q t
      (c :: r.1, r.2)

/-- The extraction loop of `extractDirectivesString` (src/requires.go
236-276): second component of the result is the remaining source. -/
def edsLoop (fuel : Nat) (l : List Char) (found needed : Nat)
    (acc : List Char) : (List Char × List Char) :=
  if found ≥ needed then (acc, l)
  else
    match fuel with
    | 0 => (acc, l)
    | f + 1 =>
      let l1 := l.dropWhile isDirWS
      match l1 with
      | [] => (acc, [])
      | c :: t =>
        if c = '"' ∨ c = '\'' then
          let sq := scanQ c t
          let ws2 := sq.2.takeWhile isST
          match sq.2.dropWhile isST with
          | ';' :: rem2 =>
            edsLoop f rem2 (found + 1) needed
              (acc ++ c :: sq.1 ++ ws2 ++ [';'] ++ ['\n'])
          | rem2 => edsLoop f rem2 found needed acc
        else (acc, l1)

/-- Model of `extractDirectivesString` (src/requires.go 208-284). -/
def extractDirectivesString (ast : StmtList) (source : String) :
    String × String :=
  let needed := countDirectives ast
  if needed = 0 then ("", source)
  else
    let r := edsLoop (source.data.length + 1) source.data 0 needed []
    (String.mk r.1, String.mk (r.2.dropWhile isDirWS))

/-- Model of `RewriteRequires` applied to an already-parsed tree (`ast` is the
parse of the source with the shebang stripped). -/
def rewriteRequiresAst (pfx source : String) (ast : StmtList) : String :=
  let sh := extractShebang source
  let eds := extractDirectivesString ast sh.2
  let st := walkReqSL pfx ast initReqState
  if st.requires.isEmpty then source
  else
    sh.1 ++ eds.1 ++ infrastructure st.pathOrder
      ++ replaceRequireCalls eds.2 st.requireCalls pfx

/-- Model of `RewriteRequires` (src/requires.go 12-77), with the external parse of
the shebang-stripped source modelled by the `Except` argument. -/
def RewriteRequires (path pfx source : String)
    (parseResult : Except String StmtList) : Except String String :=
  match parseResult with
  | .error msg => .error ("cjs: failed to parse " ++ path ++ ": " ++ msg)
  | .ok ast => .ok (rewriteRequiresAst pfx source ast)

/-! ## Derived predicates used to state the claims -/

/-- A call expression that `requireVisitor.Enter` records: exactly one
argument, a string literal, whose quote-stripped value starts with the
prefix. -/
def isQualCall (pfx : String) : Expr → Bool
  | .call _ (.cons (.lit data) .nil) => goHasPre (reqStrip data) pfx
  | _ => false

mutual
/-- Whether an expression contains (at any depth) a qualifying call. -/
def hasQualE (pfx : String) : Expr → Bool
  | .evar _ => false
  | .lit _ => false
  | .dot x y => hasQualE pfx x || hasQualE pfx y
  | .idx x y => hasQualE pfx x || hasQualE pfx y
  | .call x args =>
    isQualCall pfx (.call x args) || hasQualE pfx x || hasQualEL pfx args
  | .newE x args => hasQualE pfx x || hasQualEL pfx args
  | .binary _ x y => hasQualE pfx x || hasQualE pfx y
  | .unary x => hasQualE pfx x
  | .object props => hasQualPL pfx props
  | .funcE b => hasQualSL pfx b
  | .arrowE b => hasQualSL pfx b
  | .methodE n _ b => hasQualPN pfx n || hasQualSL pfx b

def hasQualPN (pfx : String) : PName → Bool
  | .computed e => hasQualE pfx e
  | _ => false

def hasQualP (pfx : String) : Property → Bool
  | .mk n _ v => hasQualPN pfx n || hasQualE pfx v

def hasQualPL (pfx : String) : PropList → Bool
  | .nil => false
  | .cons p rest => hasQualP pfx p || hasQualPL pfx rest

def hasQualEL (pfx : String) : ExprList → Bool
  | .nil => false
  | .cons e rest => hasQualE pfx e || hasQualEL pfx rest

def hasQualS (pfx : String) : Stmt → Bool
  | .exprS e => hasQualE pfx e
  | .varDecl inits => hasQualEL pfx inits
  | .retS e => hasQualE pfx e
  | .retNone => false
  | .directive _ => false
  | .comment _ => false
  | .importS _ _ => false
  | .ifS c t e => hasQualE pfx c || hasQualSL pfx t || hasQualSL pfx e
  | .throwS e => hasQualE pfx e
  | .blockS b => hasQualSL pfx b
  | .funcS b => hasQualSL pfx b

def hasQualSL (pfx : String) : StmtList → Bool
  | .nil => false
  | .cons s rest => hasQualS pfx s || hasQualSL pfx rest
end

/-- Modelled from the spec: the qualifying test in the claim's words — a
call with exactly one string-literal argument whose DECODED value (§4.1,
i.e. `unescapeJSString` of the quote-stripped token) starts with the
prefix.  The code itself compares the raw quote-stripped token
(`isQualCall`); this definition exists to compare the two readings. -/
def isQualCallDec (pfx : String) : Expr → Bool
  | .call _ (.cons (.lit data) .nil) => goHasPre (unescapeJSString (reqStrip data)) pfx
  | _ => false

mutual
/-- Whether an expression contains (at any depth) a call qualifying under
the decoded reading. -/
def hasQualDecE (pfx : String) : Expr → Bool
  | .evar _ => false
  | .lit _ => false
  | .dot x y => hasQualDecE pfx x || hasQualDecE pfx y
  | .idx x y => hasQualDecE pfx x || hasQualDecE pfx y
  | .call x args =>
    isQualCallDec pfx (.call x args) || hasQualDecE pfx x || hasQualDecEL pfx args
  | .newE x args => hasQualDecE pfx x || hasQualDecEL pfx args
  | .binary _ x y => hasQualDecE pfx x || hasQualDecE pfx y
  | .unary x => hasQualDecE pfx x
  | .object props => hasQualDecPL pfx props
  | .funcE b => hasQualDecSL pfx b
  | .arrowE b => hasQualDecSL pfx b
  | .methodE n _ b => hasQualDecPN pfx n || hasQualDecSL pfx b

def hasQualDecPN (pfx : String) : PName → Bool
  | .computed e => hasQualDecE pfx e
  | _ => false

def hasQualDecP (pfx : String) : Property → Bool
  | .mk n _ v => hasQualDecPN pfx n || hasQualDecE pfx v

def hasQualDecPL (pfx : String) : PropList → Bool
  | .nil => false
  | .cons p rest => hasQualDecP pfx p || hasQualDecPL pfx rest

def hasQualDecEL (pfx : String) : ExprList → Bool
  | .nil => false
  | .cons e rest => hasQualDecE pfx e || hasQualDecEL pfx rest

def hasQualDecS (pfx : String) : Stmt → Bool
  | .exprS e => hasQualDecE pfx e
  | .varDecl inits => hasQualDecEL pfx inits
  | .retS e => hasQualDecE pfx e
  | .retNone => false
  | .directive _ => false
  | .comment _ => false
  | .importS _ _ => false
  | .ifS c t e => hasQualDecE pfx c || hasQualDecSL pfx t || hasQualDecSL pfx e
  | .throwS e => hasQualDecE pfx e
  | .blockS b => hasQualDecSL pfx b
  | .funcS b => hasQualDecSL pfx b

def hasQualDecSL (pfx : String) : StmtList → Bool
  | .nil => false
  | .cons s rest => hasQualDecS pfx s || hasQualDecSL pfx rest
end

/-- A descriptor property that makes `shouldExportDefineProperty` mark the
name unsafe and return early: a getter (method form or data form) whose
body is not a plain `return` of a member access or identifier. -/
def isUnsafeGetterProp : Property → Bool
  | .mk name _ value =>
    match value with
    | .methodE mname mget mbody =>
      (pnameLiteralData mname = "get" ∨ mget) ∧ ¬ safeRet mbody
    | _ =>
      match name with
      | .missing => false
      | .unset => false
      | _ => extractPropertyName name = "get" ∧ ¬ isSafeGetter value

def propsHaveUnsafeGetter : PropList → Bool
  | .nil => false
  | .cons p rest => isUnsafeGetterProp p || propsHaveUnsafeGetter rest

/-- Whether a descriptor argument is an object literal containing an
unsafe getter. -/
def descriptorUnsafe : Expr → Bool
  | .object props => propsHaveUnsafeGetter props
  | _ => false

/-- An `Object.defineProperty(exports|module.exports, "nm", {...})` call
whose descriptor contains an unsafe getter. -/
def isUnsafeDefineFor (nm : String) : Expr → Bool
  | .call (.dot dx dy) (.cons a0 (.cons a1 (.cons a2 _))) =>
    isObjectIdent dx ∧ isDefinePropertyField dy
      ∧ (isExportsIdent a0 ∨ isModuleExports a0)
      ∧ extractStringLiteral a1 = nm ∧ nm ≠ ""
      ∧ descriptorUnsafe a2
  | _ => false

mutual
/-- Whether the tree contains, at any depth, an unsafe defineProperty for
the name `nm`. -/
def hasUnsafeDefE (nm : String) : Expr → Bool
  | .evar _ => false
  | .lit _ => false
  | .dot x y => hasUnsafeDefE nm x || hasUnsafeDefE nm y
  | .idx x y => hasUnsafeDefE nm x || hasUnsafeDefE nm y
  | .call x args =>
    isUnsafeDefineFor nm (.call x args) || hasUnsafeDefE nm x
      || hasUnsafeDefEL nm args
  | .newE x args => hasUnsafeDefE nm x || hasUnsafeDefEL nm args
  | .binary _ x y => hasUnsafeDefE nm x || hasUnsafeDefE nm y
  | .unary x => hasUnsafeDefE nm x
  | .object props => hasUnsafeDefPL nm props
  | .funcE b => hasUnsafeDefSL nm b
  | .arrowE b => hasUnsafeDefSL nm b
  | .methodE n _ b => hasUnsafeDefPN nm n || hasUnsafeDefSL nm b

def hasUnsafeDefPN (nm : String) : PName → Bool
  | .computed e => hasUnsafeDefE nm e
  | _ => false

def hasUnsafeDefP (nm : String) : Property → Bool
  | .mk n _ v => hasUnsafeDefPN nm n || hasUnsafeDefE nm v

def hasUnsafeDefPL (nm : String) : PropList → Bool
  | .nil => false
  | .cons p rest => hasUnsafeDefP nm p || hasUnsafeDefPL nm rest

def hasUnsafeDefEL (nm : String) : ExprList → Bool
  | .nil => false
  | .cons e rest => hasUnsafeDefE nm e || hasUnsafeDefEL nm rest

def hasUnsafeDefS (nm : String) : Stmt → Bool
  | .exprS e => hasUnsafeDefE nm e
  | .varDecl inits => hasUnsafeDefEL nm inits
  | .retS e => hasUnsafeDefE nm e
  | .retNone => false
  | .directive _ => false
  | .comment _ => false
  | .importS _ _ => false
  | .ifS c t e => hasUnsafeDefE nm c || hasUnsafeDefSL nm t || hasUnsafeDefSL nm e
  | .throwS e => hasUnsafeDefE nm e
  | .blockS b => hasUnsafeDefSL nm b
  | .funcS b => hasUnsafeDefSL nm b

def hasUnsafeDefSL (nm : String) : StmtList → Bool
  | .nil => false
  | .cons s rest => hasUnsafeDefS nm s || hasUnsafeDefSL nm rest
end

/-- Modelled from the spec: the claim's safe-getter test in its own words —
the getter body is SIMPLY a return of a direct member access or bare
identifier, i.e. its sole statement is such a `return`.  The code's test
(`safeRet`) is laxer: it accepts any body with SOME top-level qualifying
`return`, whatever else the body does; this definition exists to compare
the two readings. -/
def specSimplyReturn : StmtList → Bool
  | .cons (.retS v) .nil =>
    (match v with
     | .dot _ _ => true
     | .idx _ _ => true
     | .evar _ => true
     | _ => false)
  | _ => false

/-- The resolvable keys of an object literal, as extracted by
`extractObjectKeys`: non-spread properties with a set name whose
`extractPropertyName` is non-empty. -/
def resolvedKeys : PropList → List String
  | .nil => []
  | .cons (.mk name spread _) rest =>
    if spread then resolvedKeys rest
    else
      match name with
      | .missing => resolvedKeys rest
      | .unset => resolvedKeys rest
      | _ =>
        let k := extractPropertyName name
        if k ≠ "" then k :: resolvedKeys rest else resolvedKeys rest

/-- Index of the first occurrence of `pat` as a contiguous substring. -/
def subIdx (pat : List Char) : List Char → Option Nat
  | [] => if pat = [] then some 0 else none
  | c :: t =>
    if pat.isPrefixOf (c :: t) then some 0
    else (subIdx pat t).map (· + 1)

/-! ## Concrete programs used by the counterexamples and witnesses -/

/-- Model of `var a = require("/m/x");` -/
def srcC1 : String := "var a = require(\"/m/x\");"

/-- The syntax tree of `srcC1`. -/
def astC1 : StmtList :=
  .cons (.varDecl (.cons (.call (.evar "require")
    (.cons (.lit "\"/m/x\"") .nil)) .nil)) .nil

/-- The output of one rewrite of `srcC1` with prefix `/m/`. -/
def outC1 : String := rewriteRequiresAst "/m/" srcC1 astC1

/-- The syntax tree of `outC1`: the import, the `__cjs_imports__` table,
the `__cjs_require__` function, and the rewritten body. -/
def astC1b : StmtList :=
  .cons (.importS "__cjs_import_x__" "/m/x")
  (.cons (.varDecl (.cons (.object (.cons
      (.mk (.plit "\"/m/x\"") false (.evar "__cjs_import_x__")) .nil)) .nil))
  (.cons (.funcS
    (.cons (.varDecl (.cons (.idx (.evar "__cjs_imports__") (.evar "path")) .nil))
    (.cons (.ifS (.unary (.evar "req"))
      (.cons (.throwS (.newE (.evar "Error")
        (.cons (.binary false (.lit "\"Module not found: \"") (.evar "path"))
          .nil))) .nil)
      .nil)
    (.cons (.retS (.evar "req")) .nil))))
  (.cons (.varDecl (.cons (.call (.evar "__cjs_require__")
    (.cons (.lit "\"/m/x\"") .nil)) .nil)) .nil)))

/-- Model of `module.exports = {"default": 1};` -/
def astC2 : StmtList :=
  .cons (.exprS (.binary true (.dot (.evar "module") (.lit "exports"))
    (.object (.cons (.mk (.plit "\"default\"") false (.lit "1")) .nil)))) .nil

/-- Model of `Object.defineProperty(exports, 'default', {get: function() { return f() }});`
followed by `module.exports = 1;`. -/
def astC3 : StmtList :=
  .cons (.exprS (.call (.dot (.evar "Object") (.lit "defineProperty"))
    (.cons (.evar "exports") (.cons (.lit "'default'")
      (.cons (.object (.cons (.mk (.plit "get") false
        (.funcE (.cons (.retS (.call (.evar "f") .nil)) .nil))) .nil)) .nil)))))
  (.cons (.exprS (.binary true (.dot (.evar "module") (.lit "exports"))
    (.lit "1"))) .nil)

/-- The object literal `{a, b: c, d, 'e': f}`. -/
def propsC6 : PropList :=
  .cons (.mk (.plit "a") false (.evar "a"))
  (.cons (.mk (.plit "b") false (.evar "c"))
  (.cons (.mk (.plit "d") false (.evar "d"))
  (.cons (.mk (.plit "'e'") false (.evar "f")) .nil)))

/-- Model of `module.exports = {a, b: c, d, 'e': f};` -/
def astC6 : StmtList :=
  .cons (.exprS (.binary true (.dot (.evar "module") (.lit "exports"))
    (.object propsC6))) .nil

/-- Model of `// c` newline `"use strict";` newline `var a = require("/m/x");` —
a directive prologue preceded by a comment. -/
def srcC7 : String := "// c\n\"use strict\";\nvar a = require(\"/m/x\");"

/-- The syntax tree of `srcC7`. -/
def astC7 : StmtList :=
  .cons (.comment "// c")
  (.cons (.directive "\"use strict\"")
  (.cons (.varDecl (.cons (.call (.evar "require")
    (.cons (.lit "\"/m/x\"") .nil)) .nil)) .nil))

/-- The output of rewriting `srcC7` with prefix `/m/`. -/
def outC7 : String := rewriteRequiresAst "/m/" srcC7 astC7

/-- Model of `var x = 1;` — a program with no calls at all. -/
def astNoCall : StmtList := .cons (.varDecl (.cons (.lit "1") .nil)) .nil

/-- The getter body `g(); return a.b;` — it does more than return, so it is
not "simply a return of a direct member access", yet it does contain a
top-level `return` of a member access, which is all the code checks. -/
def bodyC3b : StmtList :=
  .cons (.exprS (.call (.evar "g") .nil))
  (.cons (.retS (.dot (.evar "a") (.lit "b"))) .nil)

/-- Model of `Object.defineProperty(exports, 'z', {get: function() { g(); return a.b; }});` -/
def astC3b : StmtList :=
  .cons (.exprS (.call (.dot (.evar "Object") (.lit "defineProperty"))
    (.cons (.evar "exports") (.cons (.lit "'z'")
      (.cons (.object (.cons (.mk (.plit "get") false
        (.funcE bodyC3b)) .nil)) .nil)))))
  .nil

/-- Model of `"use strict"` newline `var a = require("/m/x");` — a leading
directive terminated by automatic semicolon insertion, with no `;` on its
line. -/
def srcC7b : String := "\"use strict\"\nvar a = require(\"/m/x\");"

/-- The syntax tree of `srcC7b`: the parser still records one directive
prologue statement. -/
def astC7b : StmtList :=
  .cons (.directive "\"use strict\"")
  (.cons (.varDecl (.cons (.call (.evar "require")
    (.cons (.lit "\"/m/x\"") .nil)) .nil)) .nil)

/-- The output of rewriting `srcC7b` with prefix `/m/`. -/
def outC7b : String := rewriteRequiresAst "/m/" srcC7b astC7b

/-- Model of `var a = f("\x2Fa");` — the argument's raw quote-stripped
value is `\x2Fa`, its decoded (§4.1) value is `/a`. -/
def srcC8x : String := "var a = f(\"\\x2Fa\");"

/-- The syntax tree of `srcC8x`. -/
def astC8x : StmtList :=
  .cons (.varDecl (.cons (.call (.evar "f")
    (.cons (.lit "\"\\x2Fa\"") .nil)) .nil)) .nil

/-! ## Supporting lemmas -/

theorem uOct_pos (d : Char) (r2 : List Char) : 1 ≤ (uStep.uOct d r2).2 := by
  unfold uStep.uOct
  repeat' split
  all_goals (dsimp only; omega)

/-- Every iteration of the unescape loop advances the index. -/
theorem uStep_pos (l : List Char) : 1 ≤ (uStep l).2 := by
  unfold uStep
  repeat' split
  all_goals try (dsimp only; omega)
  all_goals exact uOct_pos _ _

/-- The result of a progressing step machine does not depend on the fuel,
as long as the fuel exceeds the input length. -/
theorem consume_irrel (step : List Char → (List Char × Nat))
    (hstep : ∀ l, 1 ≤ (step l).2) :
    ∀ f1 f2 l, l.length < f1 → l.length < f2 →
      consume step f1 l = consume step f2 l := by
  intro f1
  induction f1 with
  | zero => intro f2 l h1 _; omega
  | succ n ih =>
    intro f2 l h1 h2
    match f2, l with
    | f2, [] =>
      cases f2 with
      | zero => omega
      | succ m => rfl
    | 0, c :: t => omega
    | m + 1, c :: t =>
      simp only [consume]
      congr 1
      have hp := hstep (c :: t)
      apply ih
      · simp only [List.length_drop, List.length_cons] at *
        omega
      · simp only [List.length_drop, List.length_cons] at *
        omega


theorem extractObjectKeys_err : ∀ (props : PropList) (s : ExpState),
    (extractObjectKeys props s).err = s.err
  | .nil, s => rfl
  | .cons (.mk name spread v) rest, s => by
    unfold extractObjectKeys
    repeat' split
    all_goals try dsimp only
    all_goals repeat' split
    all_goals simp [extractObjectKeys_err rest]

theorem sedProps_err : ∀ (props : PropList) (nm : String) (s : ExpState)
    (hg hv ef : Bool), ((sedProps props nm s hg hv ef).1).err = s.err
  | .nil, _, _, _, _, _ => rfl
  | .cons (.mk name spread v) rest, nm, s, hg, hv, ef => by
    unfold sedProps
    repeat' split
    all_goals try dsimp only
    all_goals repeat' split
    all_goals simp [sedProps_err rest]

theorem shouldExport_err (props : PropList) (nm : String) (s : ExpState) :
    ((shouldExportDefineProperty props nm s).1).err = s.err := by
  unfold shouldExportDefineProperty
  have h := sedProps_err props nm s false false false
  repeat' split
  all_goals simp_all

theorem handleAssignment_err (left right : Expr) (s : ExpState) :
    (handleAssignment left right s).err = s.err := by
  unfold handleAssignment
  repeat' split
  all_goals try dsimp only
  all_goals repeat' split
  all_goals simp [extractObjectKeys_err]

theorem handleCallExpr_err (x : Expr) (args : ExprList) (s : ExpState) :
    (handleCallExpr x args s).err = s.err := by
  unfold handleCallExpr
  repeat' split
  all_goals try dsimp only
  all_goals repeat' split
  all_goals simp_all [shouldExport_err]

theorem enterExports_err (e : Expr) (s : ExpState) :
    (enterExports e s).err = s.err := by
  unfold enterExports
  repeat' split
  all_goals simp [handleAssignment_err, handleCallExpr_err]

mutual
theorem walkE_inv {σ : Type} (R : σ → σ → Prop) (enter : Expr → σ → σ)
    (htrans : ∀ a b c, R a b → R b c → R a c)
    (hrefl : ∀ s, R s s)
    (henter : ∀ e s, R s (enter e s)) :
    ∀ (e : Expr) (s : σ), R s (walkE enter e s)
  | .evar d, s => by simpa only [walkE] using henter _ s
  | .lit d, s => by simpa only [walkE] using henter _ s
  | .dot x y, s => by
    simp only [walkE]
    exact htrans _ _ _ (htrans _ _ _ (henter _ s)
      (walkE_inv R enter htrans hrefl henter x _))
      (walkE_inv R enter htrans hrefl henter y _)
  | .idx x y, s => by
    simp only [walkE]
    exact htrans _ _ _ (htrans _ _ _ (henter _ s)
      (walkE_inv R enter htrans hrefl henter x _))
      (walkE_inv R enter htrans hrefl henter y _)
  | .call x args, s => by
    simp only [walkE]
    exact htrans _ _ _ (htrans _ _ _ (henter _ s)
      (walkE_inv R enter htrans hrefl henter x _))
      (walkEL_inv R enter htrans hrefl henter args _)
  | .newE x args, s => by
    simp only [walkE]
    exact htrans _ _ _ (htrans _ _ _ (henter _ s)
      (walkE_inv R enter htrans hrefl henter x _))
      (walkEL_inv R enter htrans hrefl henter args _)
  | .binary op x y, s => by
    simp only [walkE]
    exact htrans _ _ _ (htrans _ _ _ (henter _ s)
      (walkE_inv R enter htrans hrefl henter x _))
      (walkE_inv R enter htrans hrefl henter y _)
  | .unary x, s => by
    simp only [walkE]
    exact htrans _ _ _ (henter _ s) (walkE_inv R enter htrans hrefl henter x _)
  | .object props, s => by
    simp only [walkE]
    exact htrans _ _ _ (henter _ s) (walkPL_inv R enter htrans hrefl henter props _)
  | .funcE b, s => by
    simp only [walkE]
    exact htrans _ _ _ (henter _ s) (walkSL_inv R enter htrans hrefl henter b _)
  | .arrowE b, s => by
    simp only [walkE]
    exact htrans _ _ _ (henter _ s) (walkSL_inv R enter htrans hrefl henter b _)
  | .methodE n g b, s => by
    simp only [walkE]
    exact htrans _ _ _ (htrans _ _ _ (henter _ s)
      (walkPN_inv R enter htrans hrefl henter n _))
      (walkSL_inv R enter htrans hrefl henter b _)

theorem walkPN_inv {σ : Type} (R : σ → σ → Prop) (enter : Expr → σ → σ)
    (htrans : ∀ a b c, R a b → R b c → R a c)
    (hrefl : ∀ s, R s s)
    (henter : ∀ e s, R s (enter e s)) :
    ∀ (n : PName) (s : σ), R s (walkPN enter n s)
  | .missing, s => by simpa only [walkPN] using hrefl s
  | .unset, s => by simpa only [walkPN] using hrefl s
  | .plit r, s => by simpa only [walkPN] using hrefl s
  | .computed e, s => by
    simp only [walkPN]
    exact walkE_inv R enter htrans hrefl henter e s

theorem walkP_inv {σ : Type} (R : σ → σ → Prop) (enter : Expr → σ → σ)
    (htrans : ∀ a b c, R a b → R b c → R a c)
    (hrefl : ∀ s, R s s)
    (henter : ∀ e s, R s (enter e s)) :
    ∀ (p : Property) (s : σ), R s (walkP enter p s)
  | .mk n sp v, s => by
    simp only [walkP]
    exact htrans _ _ _ (walkPN_inv R enter htrans hrefl henter n _)
      (walkE_inv R enter htrans hrefl henter v _)

theorem walkPL_inv {σ : Type} (R : σ → σ → Prop) (enter : Expr → σ → σ)
    (htrans : ∀ a b c, R a b → R b c → R a c)
    (hrefl : ∀ s, R s s)
    (henter : ∀ e s, R s (enter e s)) :
    ∀ (l : PropList) (s : σ), R s (walkPL enter l s)
  | .nil, s => by simpa only [walkPL] using hrefl s
  | .cons p rest, s => by
    simp only [walkPL]
    exact htrans _ _ _ (walkP_inv R enter htrans hrefl henter p _)
      (walkPL_inv R enter htrans hrefl henter rest _)

theorem walkEL_inv {σ : Type} (R : σ → σ → Prop) (enter : Expr → σ → σ)
    (htrans : ∀ a b c, R a b → R b c → R a c)
    (hrefl : ∀ s, R s s)
    (henter : ∀ e s, R s (enter e s)) :
    ∀ (l : ExprList) (s : σ), R s (walkEL enter l s)
  | .nil, s => by simpa only [walkEL] using hrefl s
  | .cons e rest, s => by
    simp only [walkEL]
    exact htrans _ _ _ (walkE_inv R enter htrans hrefl henter e _)
      (walkEL_inv R enter htrans hrefl henter rest _)

theorem walkS_inv {σ : Type} (R : σ → σ → Prop) (enter : Expr → σ → σ)
    (htrans : ∀ a b c, R a b → R b c → R a c)
    (hrefl : ∀ s, R s s)
    (henter : ∀ e s, R s (enter e s)) :
    ∀ (st : Stmt) (s : σ), R s (walkS enter st s)
  | .exprS e, s => by
    simpa only [walkS] using walkE_inv R enter htrans hrefl henter e s
  | .varDecl inits, s => by
    simpa only [walkS] using walkEL_inv R enter htrans hrefl henter inits s
  | .retS e, s => by
    simpa only [walkS] using walkE_inv R enter htrans hrefl henter e s
  | .retNone, s => by simpa only [walkS] using hrefl s
  | .directive r, s => by simpa only [walkS] using hrefl s
  | .comment r, s => by simpa only [walkS] using hrefl s
  | .importS b p, s => by simpa only [walkS] using hrefl s
  | .ifS c t e, s => by
    simp only [walkS]
    exact htrans _ _ _ (htrans _ _ _ (walkE_inv R enter htrans hrefl henter c _)
      (walkSL_inv R enter htrans hrefl henter t _))
      (walkSL_inv R enter htrans hrefl henter e _)
  | .throwS e, s => by
    simpa only [walkS] using walkE_inv R enter htrans hrefl henter e s
  | .blockS b, s => by
    simpa only [walkS] using walkSL_inv R enter htrans hrefl henter b s
  | .funcS b, s => by
    simpa only [walkS] using walkSL_inv R enter htrans hrefl henter b s

theorem walkSL_inv {σ : Type} (R : σ → σ → Prop) (enter : Expr → σ → σ)
    (htrans : ∀ a b c, R a b → R b c → R a c)
    (hrefl : ∀ s, R s s)
    (henter : ∀ e s, R s (enter e s)) :
    ∀ (l : StmtList) (s : σ), R s (walkSL enter l s)
  | .nil, s => by simpa only [walkSL] using hrefl s
  | .cons st rest, s => by
    simp only [walkSL]
    exact htrans _ _ _ (walkS_inv R enter htrans hrefl henter st _)
      (walkSL_inv R enter htrans hrefl henter rest _)
end

theorem walkExpSL_err (l : StmtList) (s : ExpState) :
    (walkExpSL l s).err = s.err :=
  walkSL_inv (fun a b => b.err = a.err) enterExports
    (fun _ _ _ h1 h2 => by simp only [] at h1 h2 ⊢; rw [h2, h1]) (fun _ => rfl)
    (fun e s => enterExports_err e s) l s



theorem mem_setInsert_self (x : String) (l : List String) : x ∈ setInsert x l := by
  unfold setInsert
  split <;> simp_all

theorem mem_setInsert_of_mem (x y : String) (l : List String) (h : x ∈ l) :
    x ∈ setInsert y l := by
  unfold setInsert
  split <;> simp_all

/-- The membership-preserving relation on `badGetters` used with the
generic walk invariant. -/
def RbadMono (a b : ExpState) : Prop :=
  ∀ z, z ∈ a.badGetters → z ∈ b.badGetters

theorem extractObjectKeys_bad : ∀ (props : PropList) (s : ExpState),
    (extractObjectKeys props s).badGetters = s.badGetters
  | .nil, s => rfl
  | .cons (.mk name spread v) rest, s => by
    unfold extractObjectKeys
    repeat' split
    all_goals try dsimp only
    all_goals repeat' split
    all_goals simp [extractObjectKeys_bad rest]

theorem sedProps_bad_mono : ∀ (props : PropList) (nm : String) (s : ExpState)
    (hg hv ef : Bool) (z : String), z ∈ s.badGetters →
    z ∈ ((sedProps props nm s hg hv ef).1).badGetters
  | .nil, _, _, _, _, _, _, hz => hz
  | .cons (.mk name spread v) rest, nm, s, hg, hv, ef, z, hz => by
    unfold sedProps
    repeat' split
    all_goals try dsimp only
    all_goals repeat' split
    all_goals first
      | exact sedProps_bad_mono rest _ _ _ _ _ _ hz
      | exact mem_setInsert_of_mem _ _ _ hz

theorem shouldExport_bad_mono (props : PropList) (nm : String) (s : ExpState)
    (z : String) (hz : z ∈ s.badGetters) :
    z ∈ ((shouldExportDefineProperty props nm s).1).badGetters := by
  unfold shouldExportDefineProperty
  have h := sedProps_bad_mono props nm s false false false z hz
  repeat' split
  all_goals simp_all

theorem handleAssignment_bad (left right : Expr) (s : ExpState) :
    (handleAssignment left right s).badGetters = s.badGetters := by
  unfold handleAssignment
  repeat' split
  all_goals try dsimp only
  all_goals repeat' split
  all_goals simp [extractObjectKeys_bad]

theorem handleCallExpr_bad_mono (x : Expr) (args : ExprList) (s : ExpState)
    (z : String) (hz : z ∈ s.badGetters) :
    z ∈ (handleCallExpr x args s).badGetters := by
  unfold handleCallExpr
  repeat' split
  all_goals try dsimp only
  all_goals repeat' split
  all_goals first
    | exact hz
    | exact shouldExport_bad_mono _ _ _ _ hz

theorem enterExports_bad_mono (e : Expr) (s : ExpState) :
    RbadMono s (enterExports e s) := by
  intro z hz
  unfold enterExports
  repeat' split
  all_goals first
    | exact hz
    | (rw [handleAssignment_bad]; exact hz)
    | exact handleCallExpr_bad_mono _ _ _ _ hz

theorem RbadMono_trans (a b c : ExpState) (h1 : RbadMono a b) (h2 : RbadMono b c) :
    RbadMono a c := fun z hz => h2 z (h1 z hz)

theorem walkE_badmono (e : Expr) (s : ExpState) : RbadMono s (walkE enterExports e s) :=
  walkE_inv RbadMono enterExports RbadMono_trans (fun _ _ h => h)
    enterExports_bad_mono e s

theorem walkPN_badmono (n : PName) (s : ExpState) : RbadMono s (walkPN enterExports n s) :=
  walkPN_inv RbadMono enterExports RbadMono_trans (fun _ _ h => h)
    enterExports_bad_mono n s

theorem walkPL_badmono (l : PropList) (s : ExpState) : RbadMono s (walkPL enterExports l s) :=
  walkPL_inv RbadMono enterExports RbadMono_trans (fun _ _ h => h)
    enterExports_bad_mono l s

theorem walkEL_badmono (l : ExprList) (s : ExpState) : RbadMono s (walkEL enterExports l s) :=
  walkEL_inv RbadMono enterExports RbadMono_trans (fun _ _ h => h)
    enterExports_bad_mono l s

theorem walkSL_badmono (l : StmtList) (s : ExpState) : RbadMono s (walkSL enterExports l s) :=
  walkSL_inv RbadMono enterExports RbadMono_trans (fun _ _ h => h)
    enterExports_bad_mono l s

theorem sedProps_marks : ∀ (props : PropList) (nm : String) (s : ExpState)
    (hg hv ef : Bool), propsHaveUnsafeGetter props = true →
    nm ∈ ((sedProps props nm s hg hv ef).1).badGetters
  | .nil, _, _, _, _, _, h => by simp [propsHaveUnsafeGetter] at h
  | .cons (.mk name spread v) rest, nm, s, hg, hv, ef, h => by
    simp only [propsHaveUnsafeGetter, isUnsafeGetterProp, Bool.or_eq_true] at h
    unfold sedProps
    repeat' split
    all_goals try dsimp only
    all_goals repeat' split
    all_goals first
      | exact mem_setInsert_self _ _
      | exact sedProps_marks rest _ _ _ _ _ (by simp_all)
      | simp_all

theorem shouldExport_marks (props : PropList) (nm : String) (s : ExpState)
    (h : propsHaveUnsafeGetter props = true) :
    nm ∈ ((shouldExportDefineProperty props nm s).1).badGetters := by
  unfold shouldExportDefineProperty
  have hh := sedProps_marks props nm s false false false h
  repeat' split
  all_goals simp_all

theorem enterExports_marks (nm : String) (e : Expr) (s : ExpState)
    (h : isUnsafeDefineFor nm e = true) :
    nm ∈ (enterExports e s).badGetters := by
  unfold isUnsafeDefineFor at h
  split at h
  case h_2 => simp at h
  case h_1 dx dy a0 a1 a2 rest =>
    simp only [decide_eq_true_eq] at h
    obtain ⟨h1, h2, h3, h4, h5, h6⟩ := h
    unfold descriptorUnsafe at h6
    split at h6
    case h_2 => simp at h6
    case h_1 props =>
      simp only [enterExports, handleCallExpr, h1, h2, h3, h4, h5, and_self,
        if_true, ne_eq, not_false_eq_true]
      repeat' split
      all_goals first
        | exact shouldExport_marks _ _ _ h6
        | exact mem_setInsert_of_mem _ _ _ (shouldExport_marks _ _ _ h6)
        | simp_all



mutual
theorem walkE_marks (nm : String) : ∀ (e : Expr) (s : ExpState),
    hasUnsafeDefE nm e = true → nm ∈ (walkE enterExports e s).badGetters
  | .evar d, s => by simp [hasUnsafeDefE]
  | .lit d, s => by simp [hasUnsafeDefE]
  | .dot x y, s => by
    intro h
    simp only [hasUnsafeDefE, Bool.or_eq_true] at h
    simp only [walkE]
    rcases h with h | h
    · exact walkE_badmono y _ nm (walkE_marks nm x _ h)
    · exact walkE_marks nm y _ h
  | .idx x y, s => by
    intro h
    simp only [hasUnsafeDefE, Bool.or_eq_true] at h
    simp only [walkE]
    rcases h with h | h
    · exact walkE_badmono y _ nm (walkE_marks nm x _ h)
    · exact walkE_marks nm y _ h
  | .call x args, s => by
    intro h
    simp only [hasUnsafeDefE, Bool.or_eq_true] at h
    simp only [walkE]
    rcases h with (h | h) | h
    · exact walkEL_badmono args _ nm (walkE_badmono x _ nm (enterExports_marks nm _ _ h))
    · exact walkEL_badmono args _ nm (walkE_marks nm x _ h)
    · exact walkEL_marks nm args _ h
  | .newE x args, s => by
    intro h
    simp only [hasUnsafeDefE, Bool.or_eq_true] at h
    simp only [walkE]
    rcases h with h | h
    · exact walkEL_badmono args _ nm (walkE_marks nm x _ h)
    · exact walkEL_marks nm args _ h
  | .binary op x y, s => by
    intro h
    simp only [hasUnsafeDefE, Bool.or_eq_true] at h
    simp only [walkE]
    rcases h with h | h
    · exact walkE_badmono y _ nm (walkE_marks nm x _ h)
    · exact walkE_marks nm y _ h
  | .unary x, s => by
    intro h
    simp only [hasUnsafeDefE] at h
    simp only [walkE]
    exact walkE_marks nm x _ h
  | .object props, s => by
    intro h
    simp only [hasUnsafeDefE] at h
    simp only [walkE]
    exact walkPL_marks nm props _ h
  | .funcE b, s => by
    intro h
    simp only [hasUnsafeDefE] at h
    simp only [walkE]
    exact walkSL_marks nm b _ h
  | .arrowE b, s => by
    intro h
    simp only [hasUnsafeDefE] at h
    simp only [walkE]
    exact walkSL_marks nm b _ h
  | .methodE n g b, s => by
    intro h
    simp only [hasUnsafeDefE, Bool.or_eq_true] at h
    simp only [walkE]
    rcases h with h | h
    · exact walkSL_badmono b _ nm (walkPN_marks nm n _ h)
    · exact walkSL_marks nm b _ h

theorem walkPN_marks (nm : String) : ∀ (n : PName) (s : ExpState),
    hasUnsafeDefPN nm n = true → nm ∈ (walkPN enterExports n s).badGetters
  | .missing, s => by simp [hasUnsafeDefPN]
  | .unset, s => by simp [hasUnsafeDefPN]
  | .plit r, s => by simp [hasUnsafeDefPN]
  | .computed e, s => by
    intro h
    simp only [hasUnsafeDefPN] at h
    simp only [walkPN]
    exact walkE_marks nm e _ h

theorem walkP_marks (nm : String) : ∀ (p : Property) (s : ExpState),
    hasUnsafeDefP nm p = true → nm ∈ (walkP enterExports p s).badGetters
  | .mk n sp v, s => by
    intro h
    simp only [hasUnsafeDefP, Bool.or_eq_true] at h
    simp only [walkP]
    rcases h with h | h
    · exact walkE_badmono v _ nm (walkPN_marks nm n _ h)
    · exact walkE_marks nm v _ h

theorem walkPL_marks (nm : String) : ∀ (l : PropList) (s : ExpState),
    hasUnsafeDefPL nm l = true → nm ∈ (walkPL enterExports l s).badGetters
  | .nil, s => by simp [hasUnsafeDefPL]
  | .cons p rest, s => by
    intro h
    simp only [hasUnsafeDefPL, Bool.or_eq_true] at h
    simp only [walkPL]
    rcases h with h | h
    · exact walkPL_badmono rest _ nm (walkP_marks nm p _ h)
    · exact walkPL_marks nm rest _ h

theorem walkEL_marks (nm : String) : ∀ (l : ExprList) (s : ExpState),
    hasUnsafeDefEL nm l = true → nm ∈ (walkEL enterExports l s).badGetters
  | .nil, s => by simp [hasUnsafeDefEL]
  | .cons e rest, s => by
    intro h
    simp only [hasUnsafeDefEL, Bool.or_eq_true] at h
    simp only [walkEL]
    rcases h with h | h
    · exact walkEL_badmono rest _ nm (walkE_marks nm e _ h)
    · exact walkEL_marks nm rest _ h

theorem walkS_marks (nm : String) : ∀ (st : Stmt) (s : ExpState),
    hasUnsafeDefS nm st = true → nm ∈ (walkS enterExports st s).badGetters
  | .exprS e, s => by
    intro h
    simp only [hasUnsafeDefS] at h
    simp only [walkS]
    exact walkE_marks nm e _ h
  | .varDecl inits, s => by
    intro h
    simp only [hasUnsafeDefS] at h
    simp only [walkS]
    exact walkEL_marks nm inits _ h
  | .retS e, s => by
    intro h
    simp only [hasUnsafeDefS] at h
    simp only [walkS]
    exact walkE_marks nm e _ h
  | .retNone, s => by simp [hasUnsafeDefS]
  | .directive r, s => by simp [hasUnsafeDefS]
  | .comment r, s => by simp [hasUnsafeDefS]
  | .importS b p, s => by simp [hasUnsafeDefS]
  | .ifS c t e, s => by
    intro h
    simp only [hasUnsafeDefS, Bool.or_eq_true] at h
    simp only [walkS]
    rcases h with (h | h) | h
    · exact walkSL_badmono e _ nm (walkSL_badmono t _ nm (walkE_marks nm c _ h))
    · exact walkSL_badmono e _ nm (walkSL_marks nm t _ h)
    · exact walkSL_marks nm e _ h
  | .throwS e, s => by
    intro h
    simp only [hasUnsafeDefS] at h
    simp only [walkS]
    exact walkE_marks nm e _ h
  | .blockS b, s => by
    intro h
    simp only [hasUnsafeDefS] at h
    simp only [walkS]
    exact walkSL_marks nm b _ h
  | .funcS b, s => by
    intro h
    simp only [hasUnsafeDefS] at h
    simp only [walkS]
    exact walkSL_marks nm b _ h

theorem walkSL_marks (nm : String) : ∀ (l : StmtList) (s : ExpState),
    hasUnsafeDefSL nm l = true → nm ∈ (walkSL enterExports l s).badGetters
  | .nil, s => by simp [hasUnsafeDefSL]
  | .cons st rest, s => by
    intro h
    simp only [hasUnsafeDefSL, Bool.or_eq_true] at h
    simp only [walkSL]
    rcases h with h | h
    · exact walkSL_badmono rest _ nm (walkS_marks nm st _ h)
    · exact walkSL_marks nm rest _ h
end

theorem mem_sortIns (a x : String) (l : List String) :
    a ∈ sortIns x l ↔ a = x ∨ a ∈ l := by
  induction l with
  | nil => simp [sortIns]
  | cons y t ih =>
    simp only [sortIns]
    split
    · simp
    · simp [ih]
      tauto

theorem mem_sortStrings (a : String) (l : List String) :
    a ∈ sortStrings l ↔ a ∈ l := by
  induction l with
  | nil => simp [sortStrings]
  | cons x t ih => simp [sortStrings, mem_sortIns, ih]



/-- C3 counterexample, refuting the claim twice.  First, in
`Object.defineProperty(exports, 'default', {get: function() { return f() }});
module.exports = 1;` the name `default` has an unsafe getter (so it is in
UnsafeMarks), yet it IS present in the final export set, because the
`module.exports` assignment appends `"default"` after the unsafe purge.
Second, the claim's own unsafety test does not match the code's: in
`Object.defineProperty(exports, 'z', {get: function() { g(); return a.b; }});`
the getter body is NOT simply a return of a direct member access
(`specSimplyReturn bodyC3b = false`, so the claim demands that `z` be
absent), but the code's loop only looks for SOME top-level `return` of a
member access or identifier, finds one, judges the getter safe, and
exports `z`. -/
theorem c3_counterexample :
    (hasUnsafeDefSL "default" astC3 = true
      ∧ "default" ∈ (walkExpSL astC3 initExpState).badGetters
      ∧ parseExportsAst astC3 = ["default"])
    ∧ (specSimplyReturn bodyC3b = false
      ∧ safeRet bodyC3b = true
      ∧ parseExportsAst astC3b = ["z"]) := by
  refine ⟨⟨by decide, by decide, by decide⟩, by decide, by decide, by decide⟩

/-- C3 (amended): the code judges a getter unsafe only when its body has NO
top-level `return` of a member access or bare identifier (`safeRet`), a
laxer test than the claim's "simply a return" — a body such as
`g(); return a.b;` counts as safe and its name is exported.  With
unsafety so defined (`hasUnsafeDefSL`): a name with an unsafe
defineProperty getter anywhere in the source is absent from the final
export set of ParseExports, regardless of other mentions of the name —
except that the name `default` still appears when `module.exports = ...`
set `hasDefaultExport`, because the `"default"` entry is appended after
the unsafe purge. -/
theorem c3_theorem (ast : StmtList) (nm : String)
    (hu : hasUnsafeDefSL nm ast = true)
    (hm : nm ∈ parseExportsAst ast) :
    nm = "default" ∧ (walkExpSL ast initExpState).hasDefaultExport = true := by
  have hbad : nm ∈ (walkExpSL ast initExpState).badGetters :=
    walkSL_marks nm ast initExpState hu
  unfold parseExportsAst finalizeExports at hm
  rw [mem_sortStrings] at hm
  split at hm
  · rcases List.mem_append.mp hm with hm | hm
    · have h2 := (List.mem_filter.mp hm).2
      simp_all
    · simp_all
  · have h2 := (List.mem_filter.mp hm).2
    simp_all

/-- C3 witness: the amended claim applied to the concrete program of the
counterexample. -/
theorem c3_witness :
    hasUnsafeDefSL "default" astC3 = true
      ∧ "default" ∈ parseExportsAst astC3
      ∧ ("default" = "default"
         ∧ (walkExpSL astC3 initExpState).hasDefaultExport = true) :=
  ⟨by decide, by decide, c3_theorem astC3 "default" (by decide) (by decide)⟩

/-- C2: `module.exports = {"default": 1};` makes `ParseExports` return the
name `default` twice — the code appends `"default"` for `hasDefault`
without checking whether it is already present, so the output has a
duplicate, contradicting the no-duplicates invariant. -/
theorem c2_theorem :
    parseExportsAst astC2 = ["default", "default"]
      ∧ ¬ (parseExportsAst astC2).Nodup := by
  refine ⟨by decide, by decide⟩

/-- C4: `ParseExports` and `RewriteRequires` fail exactly when the
underlying parse fails; for every tree the parse produces, both succeed
(the visitor error field is never set, and no post-parse step can fail). -/
theorem c4_theorem :
    (∀ (path : String) (r : Except String StmtList),
        (ParseExports path r).isOk = r.isOk)
      ∧ (∀ (path pfx source : String) (r : Except String StmtList),
        (RewriteRequires path pfx source r).isOk = r.isOk) := by
  constructor
  · intro path r
    cases r with
    | error e => rfl
    | ok ast =>
      simp only [ParseExports, walkExpSL_err]
      rfl
  · intro path pfx source r
    cases r with
    | error e => rfl
    | ok ast => rfl




/-- One unfolding step of `consume` on a non-empty input. -/
theorem consume_cons (step : List Char → (List Char × Nat)) (n : Nat)
    (c : Char) (t : List Char) :
    consume step (n + 1) (c :: t)
      = (step (c :: t)).1 ++ consume step n ((c :: t).drop (step (c :: t)).2) := rfl

/-- C9: the escape decoder is total: for every input string the scanning
loop terminates within `length + 1` iterations (each iteration advances),
producing the decoder's output — no input gets stuck or fails. -/
theorem c9_theorem (s : String) (f : Nat) (hf : s.data.length < f) :
    consume uStep f s.data = (unescapeJSString s).data := by
  show consume uStep f s.data = unescapeList s.data
  unfold unescapeList
  exact consume_irrel uStep uStep_pos f (s.data.length + 1) s.data hf (by omega)

/-- C9 witness. -/
theorem c9_witness :
    consume uStep 10 ("a\\nb\\").data = (unescapeJSString "a\\nb\\").data :=
  c9_theorem "a\\nb\\" 10 (by decide)

/-- C5 counterexample: in `\xzz` the two following characters are not hex
digits; the claim says the decoder emits the literal `x` and leaves `zz` to
be decoded normally (output `xzz`), but the code only checks that two
characters exist, consumes all four characters, and emits code point 0 (the
`%x` scan fails, leaving `val` at its zero value).  Likewise `\x-f` does
not become `x-f`: the scan accepts the sign, `rune(-15)` is invalid, and
the decoder emits U+FFFD; and in `\x` followed by a newline and `5` the
scan stops with an "unexpected newline" error, so the decoder emits NUL,
not `x` followed by the remaining text. -/
theorem c5_counterexample :
    (unescapeJSString "\\xzz" = "\x00" ∧ unescapeJSString "\\xzz" ≠ "xzz")
    ∧ (unescapeJSString "\\x-f" = "\uFFFD" ∧ unescapeJSString "\\x-f" ≠ "x-f")
    ∧ (unescapeJSString "\\x\n5" = "\x00" ∧ unescapeJSString "\\x\n5" ≠ "x\n5") :=
  ⟨⟨by decide, by decide⟩, ⟨by decide, by decide⟩, ⟨by decide, by decide⟩⟩

/-- C5 (amended): the truncated-fallback applies only when fewer than two
characters follow `\x`; then the decoder emits the literal `x` and advances
past only the backslash and the `x`.  When two characters follow, they are
always consumed (regardless of being hex digits) and the emitted character
is Go's rune conversion of the `fmt.Sscanf` `%x` scan of those two
characters: the scan skips leading blanks but errors on a newline, accepts
an optional sign, then reads hex digits; on a scan error the value stays
0 (so the decoder emits NUL), and an out-of-range value — e.g. a negative
one from a signed scan — becomes U+FFFD. -/
theorem c5_theorem :
    (∀ (c1 c2 : Char) (rest : List Char),
       unescapeList ('\\' :: 'x' :: c1 :: c2 :: rest)
         = mkRune (goScanHexInt [c1, c2]) :: unescapeList rest)
    ∧ (∀ t : List Char, t.length ≤ 1 →
       unescapeList ('\\' :: 'x' :: t) = 'x' :: unescapeList t) := by
  constructor
  · intro c1 c2 rest
    unfold unescapeList
    have hl : ('\\' :: 'x' :: c1 :: c2 :: rest).length + 1 = (rest.length + 4) + 1 := by
      simp only [List.length_cons]
    rw [hl, consume_cons]
    have hu : uStep ('\\' :: 'x' :: c1 :: c2 :: rest) = ([mkRune (goScanHexInt [c1, c2])], 4) := rfl
    rw [hu]
    simp only [List.cons_append, List.nil_append, List.cons.injEq, true_and,
      List.drop_succ_cons, List.drop_zero]
    exact consume_irrel uStep uStep_pos _ _ rest (by omega) (by omega)
  · intro t ht
    match t, ht with
    | [], _ => decide
    | [c], _ =>
      unfold unescapeList
      have hl : (['\\', 'x', c] : List Char).length + 1 = 3 + 1 := rfl
      rw [hl, consume_cons]
      have hu : uStep ['\\', 'x', c] = (['x'], 2) := rfl
      rw [hu]
      simp only [List.cons_append, List.nil_append, List.cons.injEq, true_and,
        List.drop_succ_cons, List.drop_zero]
      exact consume_irrel uStep uStep_pos _ _ [c] (by simp) (by simp)

/-- C5 witness: both parts of the amended claim at concrete inputs. -/
theorem c5_witness :
    ([('z' : Char)].length ≤ 1
      ∧ unescapeList ['\\', 'x', 'z'] = 'x' :: unescapeList ['z'])
    ∧ unescapeList ['\\', 'x', 'z', 'z'] = mkRune (goScanHexInt ['z', 'z']) :: unescapeList [] :=
  ⟨⟨by decide, c5_theorem.2 ['z'] (by decide)⟩, c5_theorem.1 'z' 'z' []⟩

/-- Membership in exports is preserved by `extractObjectKeys`. -/
theorem extractObjectKeys_exports_mono : ∀ (props : PropList) (s : ExpState)
    (k : String), k ∈ s.exports → k ∈ (extractObjectKeys props s).exports
  | .nil, s, k, hk => hk
  | .cons (.mk name spread v) rest, s, k, hk => by
    unfold extractObjectKeys
    repeat' split
    all_goals try dsimp only
    all_goals repeat' split
    all_goals first
      | exact extractObjectKeys_exports_mono rest _ _ hk
      | exact extractObjectKeys_exports_mono rest _ _ (mem_setInsert_of_mem _ _ _ hk)

/-- Every resolved key of the object literal is in the exports set after
`extractObjectKeys`. -/
theorem extractObjectKeys_resolved : ∀ (props : PropList) (s : ExpState)
    (k : String), k ∈ resolvedKeys props → k ∈ (extractObjectKeys props s).exports
  | .nil, s, k, hk => by simp [resolvedKeys] at hk
  | .cons (.mk name spread v) rest, s, k, hk => by
    unfold resolvedKeys at hk
    unfold extractObjectKeys
    repeat' split
    all_goals try dsimp only at hk ⊢
    all_goals try repeat' split at hk
    all_goals try repeat' split
    all_goals simp_all
    all_goals first
      | exact extractObjectKeys_resolved rest _ _ hk
      | (rcases hk with hk | hk;
         · exact extractObjectKeys_exports_mono rest _ _ (hk ▸ mem_setInsert_self _ _)
         · exact extractObjectKeys_resolved rest _ _ hk)

/-- C6: for `module.exports = { ... }` with an object literal right-hand
side, the assignment sets `hasDefaultExport` and adds exactly the
resolvable keys (shorthand, `key: value`, string keys, string-literal
computed keys) via `extractObjectKeys`, skipping spreads; every resolved
key ends up in the export set; and the concrete example
`module.exports = {a, b: c, d, 'e': f};` yields exactly
`{a, b, d, e, default}`. -/
theorem c6_theorem :
    (∀ (props : PropList) (s : ExpState),
       handleAssignment (.dot (.evar "module") (.lit "exports")) (.object props) s
         = extractObjectKeys props { s with hasDefaultExport := true })
    ∧ (∀ (props : PropList) (s : ExpState) (k : String),
       k ∈ resolvedKeys props → k ∈ (extractObjectKeys props s).exports)
    ∧ parseExportsAst astC6 = ["a", "b", "d", "default", "e"] := by
  refine ⟨fun props s => rfl, extractObjectKeys_resolved, by decide⟩

/-- C6 witness: the second conjunct applied to the example literal. -/
theorem c6_witness :
    "e" ∈ resolvedKeys propsC6
      ∧ "e" ∈ (extractObjectKeys propsC6 initExpState).exports :=
  ⟨by decide, c6_theorem.2.1 propsC6 initExpState "e" (by decide)⟩

/-- Model of `requireVisitor.Enter` leaves the state unchanged on any node that is
not a qualifying call. -/
theorem enterReq_id (pfx : String) (e : Expr) (s : ReqState)
    (h : isQualCall pfx e = false) : enterReq pfx e s = s := by
  unfold enterReq
  split
  · rename_i x data
    simp only [isQualCall] at h
    simp [h]
  · rfl

mutual
theorem walkE_noqual (pfx : String) : ∀ (e : Expr) (s : ReqState),
    hasQualE pfx e = false → walkE (enterReq pfx) e s = s
  | .evar d, s, h => by
    simp only [walkE]
    rw [enterReq_id pfx (.evar d) s (by rfl)]
  | .lit d, s, h => by
    simp only [walkE]
    rw [enterReq_id pfx (.lit d) s (by rfl)]
  | .dot x y, s, h => by
    simp only [hasQualE, Bool.or_eq_false_iff] at h
    simp only [walkE]
    rw [enterReq_id pfx (.dot x y) s (by rfl), walkE_noqual pfx x s h.1,
      walkE_noqual pfx y s h.2]
  | .idx x y, s, h => by
    simp only [hasQualE, Bool.or_eq_false_iff] at h
    simp only [walkE]
    rw [enterReq_id pfx (.idx x y) s (by rfl), walkE_noqual pfx x s h.1,
      walkE_noqual pfx y s h.2]
  | .call x args, s, h => by
    simp only [hasQualE, Bool.or_eq_false_iff] at h
    simp only [walkE]
    rw [enterReq_id pfx (.call x args) s h.1.1, walkE_noqual pfx x s h.1.2,
      walkEL_noqual pfx args s h.2]
  | .newE x args, s, h => by
    simp only [hasQualE, Bool.or_eq_false_iff] at h
    simp only [walkE]
    rw [enterReq_id pfx (.newE x args) s (by rfl), walkE_noqual pfx x s h.1,
      walkEL_noqual pfx args s h.2]
  | .binary op x y, s, h => by
    simp only [hasQualE, Bool.or_eq_false_iff] at h
    simp only [walkE]
    rw [enterReq_id pfx (.binary op x y) s (by rfl), walkE_noqual pfx x s h.1,
      walkE_noqual pfx y s h.2]
  | .unary x, s, h => by
    simp only [hasQualE] at h
    simp only [walkE]
    rw [enterReq_id pfx (.unary x) s (by rfl), walkE_noqual pfx x s h]
  | .object props, s, h => by
    simp only [hasQualE] at h
    simp only [walkE]
    rw [enterReq_id pfx (.object props) s (by rfl), walkPL_noqual pfx props s h]
  | .funcE b, s, h => by
    simp only [hasQualE] at h
    simp only [walkE]
    rw [enterReq_id pfx (.funcE b) s (by rfl), walkSL_noqual pfx b s h]
  | .arrowE b, s, h => by
    simp only [hasQualE] at h
    simp only [walkE]
    rw [enterReq_id pfx (.arrowE b) s (by rfl), walkSL_noqual pfx b s h]
  | .methodE n g b, s, h => by
    simp only [hasQualE, Bool.or_eq_false_iff] at h
    simp only [walkE]
    rw [enterReq_id pfx (.methodE n g b) s (by rfl), walkPN_noqual pfx n s h.1,
      walkSL_noqual pfx b s h.2]

theorem walkPN_noqual (pfx : String) : ∀ (n : PName) (s : ReqState),
    hasQualPN pfx n = false → walkPN (enterReq pfx) n s = s
  | .missing, s, h => rfl
  | .unset, s, h => rfl
  | .plit r, s, h => rfl
  | .computed e, s, h => by
    simp only [hasQualPN] at h
    simp only [walkPN]
    exact walkE_noqual pfx e s h

theorem walkP_noqual (pfx : String) : ∀ (p : Property) (s : ReqState),
    hasQualP pfx p = false → walkP (enterReq pfx) p s = s
  | .mk n sp v, s, h => by
    simp only [hasQualP, Bool.or_eq_false_iff] at h
    simp only [walkP]
    rw [walkPN_noqual pfx n s h.1, walkE_noqual pfx v s h.2]

theorem walkPL_noqual (pfx : String) : ∀ (l : PropList) (s : ReqState),
    hasQualPL pfx l = false → walkPL (enterReq pfx) l s = s
  | .nil, s, h => rfl
  | .cons p rest, s, h => by
    simp only [hasQualPL, Bool.or_eq_false_iff] at h
    simp only [walkPL]
    rw [walkP_noqual pfx p s h.1, walkPL_noqual pfx rest s h.2]

theorem walkEL_noqual (pfx : String) : ∀ (l : ExprList) (s : ReqState),
    hasQualEL pfx l = false → walkEL (enterReq pfx) l s = s
  | .nil, s, h => rfl
  | .cons e rest, s, h => by
    simp only [hasQualEL, Bool.or_eq_false_iff] at h
    simp only [walkEL]
    rw [walkE_noqual pfx e s h.1, walkEL_noqual pfx rest s h.2]

theorem walkS_noqual (pfx : String) : ∀ (st : Stmt) (s : ReqState),
    hasQualS pfx st = false → walkS (enterReq pfx) st s = s
  | .exprS e, s, h => by
    simp only [hasQualS] at h
    simp only [walkS]
    exact walkE_noqual pfx e s h
  | .varDecl inits, s, h => by
    simp only [hasQualS] at h
    simp only [walkS]
    exact walkEL_noqual pfx inits s h
  | .retS e, s, h => by
    simp only [hasQualS] at h
    simp only [walkS]
    exact walkE_noqual pfx e s h
  | .retNone, s, h => rfl
  | .directive r, s, h => rfl
  | .comment r, s, h => rfl
  | .importS b p, s, h => rfl
  | .ifS c t e, s, h => by
    simp only [hasQualS, Bool.or_eq_false_iff] at h
    simp only [walkS]
    rw [walkE_noqual pfx c s h.1.1, walkSL_noqual pfx t s h.1.2,
      walkSL_noqual pfx e s h.2]
  | .throwS e, s, h => by
    simp only [hasQualS] at h
    simp only [walkS]
    exact walkE_noqual pfx e s h
  | .blockS b, s, h => by
    simp only [hasQualS] at h
    simp only [walkS]
    exact walkSL_noqual pfx b s h
  | .funcS b, s, h => by
    simp only [hasQualS] at h
    simp only [walkS]
    exact walkSL_noqual pfx b s h

theorem walkSL_noqual (pfx : String) : ∀ (l : StmtList) (s : ReqState),
    hasQualSL pfx l = false → walkSL (enterReq pfx) l s = s
  | .nil, s, h => rfl
  | .cons st rest, s, h => by
    simp only [hasQualSL, Bool.or_eq_false_iff] at h
    simp only [walkSL]
    rw [walkS_noqual pfx st s h.1, walkSL_noqual pfx rest s h.2]
end

/-- With no qualifying call in the tree, `RewriteRequires` returns the
source unchanged (shared helper for the claims below). -/
theorem rewrite_no_matches (pfx source : String) (ast : StmtList)
    (h : hasQualSL pfx ast = false) :
    rewriteRequiresAst pfx source ast = source := by
  unfold rewriteRequiresAst
  have hw : walkReqSL pfx ast initReqState = initReqState :=
    walkSL_noqual pfx ast initReqState h
  rw [hw]
  rfl

/-- C1 counterexample: rewriting `var a = require("/m/x");` with prefix
`/m/` produces an output whose own tree (`astC1b`) still contains a
qualifying call — the rewritten `__cjs_require__("/m/x")` call site — so a
second run is NOT a no-op: it prepends a second copy of the scaffolding. -/
theorem c1_counterexample :
    hasQualSL "/m/" astC1b = true
      ∧ rewriteRequiresAst "/m/" outC1 astC1b ≠ outC1
      ∧ rewriteRequiresAst "/m/" outC1 astC1b = infrastructure ["/m/x"] ++ outC1 :=
  ⟨by decide, by decide, by decide⟩

/-- C1 (amended): re-running `RewriteRequires` on its own output is a
no-op only when the first run found no qualifying call (then the output is
the input, and every further run returns it unchanged); when a qualifying
call was found, each rewritten call site again qualifies, so a second run
injects a second copy of the import/table/lookup scaffolding. -/
theorem c1_theorem (pfx source : String) (ast : StmtList)
    (h : hasQualSL pfx ast = false) :
    rewriteRequiresAst pfx (rewriteRequiresAst pfx source ast) ast
      = rewriteRequiresAst pfx source ast := by
  rw [rewrite_no_matches pfx source ast h]
  exact rewrite_no_matches pfx source ast h

/-- C1 witness. -/
theorem c1_witness :
    hasQualSL "/m/" astNoCall = false
      ∧ rewriteRequiresAst "/m/"
          (rewriteRequiresAst "/m/" "var x = 1;" astNoCall) astNoCall
        = rewriteRequiresAst "/m/" "var x = 1;" astNoCall :=
  ⟨by decide, c1_theorem "/m/" "var x = 1;" astNoCall (by decide)⟩




theorem isPrefixOf_append_self : ∀ (a b : List Char), a.isPrefixOf (a ++ b) = true
  | [], b => by simp
  | c :: a, b => by
    simp only [List.cons_append, List.isPrefixOf_cons₂_self]
    exact isPrefixOf_append_self a b

theorem takeWhile_ws_append (p : Char → Bool) :
    ∀ (ws : List Char) (c : Char) (l : List Char),
    (∀ x ∈ ws, p x = true) → p c = false →
    ((ws ++ c :: l).takeWhile p = ws ∧ (ws ++ c :: l).dropWhile p = c :: l)
  | [], c, l, _, hc => by
    simp [List.takeWhile_cons, List.dropWhile_cons, hc]
  | x :: ws, c, l, hws, hc => by
    have hx : p x = true := hws x (by simp)
    have ih := takeWhile_ws_append p ws c l (fun y hy => hws y (by simp [hy])) hc
    simp [List.takeWhile_cons, List.dropWhile_cons, hx, ih.1, ih.2]

theorem quote_not_ws (q : Char) (hq : q = '"' ∨ q = '\'') : isRegexWS q = false := by
  rcases hq with h | h <;> subst h <;> decide

theorem tryMatch_at_match (fn pfx ws1 ws2 w : List Char) (q : Char)
    (hq : q = '"' ∨ q = '\'')
    (hw1 : ∀ c ∈ ws1, isRegexWS c = true)
    (hw2 : ∀ c ∈ ws2, isRegexWS c = true) :
    tryMatch fn pfx (fn ++ (ws1 ++ ('(' :: (ws2 ++ (q :: (pfx ++ w))))))
      = some (q, fn.length + ws1.length + 1 + ws2.length + 1 + pfx.length) := by
  have h1 := isPrefixOf_append_self fn (ws1 ++ ('(' :: (ws2 ++ (q :: (pfx ++ w)))))
  have h2 := takeWhile_ws_append isRegexWS ws1 '(' (ws2 ++ (q :: (pfx ++ w))) hw1
    (by decide)
  have h3 := takeWhile_ws_append isRegexWS ws2 q (pfx ++ w) hw2 (quote_not_ws q hq)
  have h4 := isPrefixOf_append_self pfx w
  unfold tryMatch
  simp only [h1, List.drop_left, h2.1, h2.2, h3.1, h3.2, h4, hq, if_true]

theorem tryMatch_pos (fn pfx l : List Char) (q : Char) (n : Nat)
    (h : tryMatch fn pfx l = some (q, n)) : 1 ≤ n := by
  unfold tryMatch at h
  dsimp only at h
  repeat' split at h
  all_goals first
    | (exfalso; exact Option.noConfusion h)
    | (have h2 := congrArg Prod.snd (Option.some.inj h)
       dsimp only at h2
       omega)

theorem rrStep_pos (fn pfx : List Char) : ∀ l, 1 ≤ (rrStep fn pfx l).2 := by
  intro l
  unfold rrStep
  split
  · rename_i q n h
    exact tryMatch_pos fn pfx l q n h
  · split <;> simp

theorem consume_ne (step : List Char → (List Char × Nat)) (n : Nat)
    (l : List Char) (h : l ≠ []) :
    consume step (n + 1) l = (step l).1 ++ consume step n (l.drop (step l).2) := by
  cases l with
  | nil => exact absurd rfl h
  | cons c t => rfl

theorem replaceOneL_skip (fn pfx : List Char) :
    ∀ (u rest : List Char),
    (∀ i, i < u.length → tryMatch fn pfx (u.drop i ++ rest) = none) →
    replaceOneL fn pfx (u ++ rest) = u ++ consume (rrStep fn pfx) (rest.length + 1) rest
  | [], rest, _ => by simp [replaceOneL]
  | c :: u, rest, hu => by
    unfold replaceOneL
    have h0 := hu 0 (by simp)
    simp only [List.drop_zero] at h0
    have hne : (c :: u) ++ rest ≠ [] := by simp
    have hl : ((c :: u) ++ rest).length + 1 = ((u ++ rest).length + 1) + 1 := by
      simp
    rw [hl, consume_ne _ _ _ hne]
    have hs : rrStep fn pfx ((c :: u) ++ rest) = ([c], 1) := by
      unfold rrStep
      simp only [List.cons_append] at h0 ⊢
      rw [h0]
    rw [hs]
    simp only [List.cons_append, List.drop_succ_cons, List.drop_zero,
      List.singleton_append]
    have ih := replaceOneL_skip fn pfx u rest
      (fun i hi => by
        have := hu (i + 1) (by simp; omega)
        simpa using this)
    unfold replaceOneL at ih
    rw [ih]
    simp

theorem replaceOneL_match (fn pfx ws1 ws2 w : List Char) (q : Char)
    (hq : q = '"' ∨ q = '\'')
    (hw1 : ∀ c ∈ ws1, isRegexWS c = true)
    (hw2 : ∀ c ∈ ws2, isRegexWS c = true) :
    replaceOneL fn pfx (fn ++ (ws1 ++ ('(' :: (ws2 ++ (q :: (pfx ++ w))))))
      = ("__cjs_require__(").data ++ q :: pfx ++ replaceOneL fn pfx w := by
  have hm := tryMatch_at_match fn pfx ws1 ws2 w q hq hw1 hw2
  have hne : fn ++ (ws1 ++ ('(' :: (ws2 ++ (q :: (pfx ++ w))))) ≠ [] := by
    intro h
    have := congrArg List.length h
    simp at this
  unfold replaceOneL
  rw [consume_ne _ _ _ hne]
  have hs : rrStep fn pfx (fn ++ (ws1 ++ ('(' :: (ws2 ++ (q :: (pfx ++ w))))))
      = (("__cjs_require__(").data ++ q :: pfx,
         fn.length + ws1.length + 1 + ws2.length + 1 + pfx.length) := by
    unfold rrStep
    rw [hm]
  rw [hs]
  have hassoc : fn ++ (ws1 ++ ('(' :: (ws2 ++ (q :: (pfx ++ w)))))
      = (fn ++ ws1 ++ ['('] ++ ws2 ++ [q] ++ pfx) ++ w := by
    simp
  have hlen : (fn ++ ws1 ++ ['('] ++ ws2 ++ [q] ++ pfx).length
      = fn.length + ws1.length + 1 + ws2.length + 1 + pfx.length := by
    simp [List.length_append]
    omega
  have hd : (fn ++ (ws1 ++ ('(' :: (ws2 ++ (q :: (pfx ++ w)))))).drop
      (fn.length + ws1.length + 1 + ws2.length + 1 + pfx.length) = w := by
    rw [hassoc, ← hlen, List.drop_left]
  rw [hd]
  simp only [List.append_assoc, List.cons_append, List.append_cancel_left_eq,
    List.cons.injEq, true_and]
  apply consume_irrel (rrStep fn pfx) (rrStep_pos fn pfx)
  · simp only [List.length_append, List.length_cons]
    omega
  · omega

/-- C10: the step-7 substitution is purely textual over the body: wherever
the body text contains the callee name, optional whitespace, `(`, optional
whitespace, a quote and then the prefix, it is rewritten to
`__cjs_require__(` + quote + prefix — the pattern is not anchored at an
identifier boundary and applies regardless of syntactic context (string
literals and comments included), and scanning continues after the match. -/
theorem c10_theorem (fn pfx u ws1 ws2 w : List Char) (q : Char)
    (calls : List (String × String))
    (hc : calleeNames calls = [String.mk fn])
    (hq : q = '"' ∨ q = '\'')
    (hw1 : ∀ c ∈ ws1, isRegexWS c = true)
    (hw2 : ∀ c ∈ ws2, isRegexWS c = true)
    (hu : ∀ i, i < u.length →
      tryMatch fn pfx (u.drop i
        ++ (fn ++ (ws1 ++ ('(' :: (ws2 ++ (q :: (pfx ++ w))))))) = none) :
    replaceRequireCalls
        (String.mk (u ++ (fn ++ (ws1 ++ ('(' :: (ws2 ++ (q :: (pfx ++ w))))))))
        calls (String.mk pfx)
      = String.mk (u ++ (("__cjs_require__(").data ++ q :: pfx
          ++ replaceOneL fn pfx w)) := by
  unfold replaceRequireCalls
  rw [hc]
  simp only [List.foldl]
  congr 1
  show replaceOneL fn pfx
      (u ++ (fn ++ (ws1 ++ ('(' :: (ws2 ++ (q :: (pfx ++ w))))))) = _
  rw [replaceOneL_skip fn pfx u _ hu]
  have hm := replaceOneL_match fn pfx ws1 ws2 w q hq hw1 hw2
  unfold replaceOneL at hm
  rw [hm]
  rfl

/-- C10 witness: with callee name `require`, the occurrence inside the
string literal `"xrequire('/m/a')"` — where `require` is also only the
trailing part of the identifier `xrequire` — is rewritten. -/
theorem c10_witness :
    replaceRequireCalls "var s = \"xrequire('/m/a')\";" [("require", "/m/a")] "/m/"
      = "var s = \"x__cjs_require__('/m/a')\";" := by
  have h := c10_theorem ("require").data ("/m/").data ("var s = \"x").data [] []
    ("a')\";").data '\'' [("require", "/m/a")] (by decide) (by decide)
    (by decide) (by decide) (by decide)
  exact h




theorem splitOn_cons (sep c : Char) (t : List Char) :
    splitOn sep (c :: t)
      = (match splitOn sep t with
         | [] => [[c]]
         | h :: r => if c = sep then [] :: h :: r else (c :: h) :: r) := rfl

theorem splitOn_ne_nil (sep : Char) : ∀ l, splitOn sep l ≠ []
  | [] => by simp [splitOn]
  | c :: t => by
    rw [splitOn_cons]
    cases h : splitOn sep t with
    | nil => simp
    | cons a r => dsimp only; split <;> simp

theorem splitOn_no_sep_append (sep : Char) :
    ∀ (a b : List Char), (∀ c ∈ a, c ≠ sep) →
    splitOn sep (a ++ sep :: b) = a :: splitOn sep b
  | [], b, _ => by
    show splitOn sep (sep :: b) = [] :: splitOn sep b
    rw [splitOn_cons]
    cases h : splitOn sep b with
    | nil => exact absurd h (splitOn_ne_nil sep b)
    | cons x r => simp
  | c :: a, b, h => by
    have hc : c ≠ sep := h c (by simp)
    have ih := splitOn_no_sep_append sep a b (fun x hx => h x (by simp [hx]))
    rw [List.cons_append, splitOn_cons, ih]
    simp [hc]

theorem joinNL_splitOn : ∀ l, joinNL (splitOn '\n' l) = l
  | [] => rfl
  | c :: t => by
    have ih := joinNL_splitOn t
    rw [splitOn_cons]
    cases h : splitOn '\n' t with
    | nil => exact absurd h (splitOn_ne_nil _ t)
    | cons a r =>
      rw [h] at ih
      dsimp only
      by_cases hc : c = '\n'
      · subst hc
        rw [if_pos rfl]
        show ('\n' : Char) :: joinNL (a :: r) = '\n' :: t
        exact congrArg _ ih
      · rw [if_neg hc]
        cases r with
        | nil =>
          show c :: joinNL [a] = c :: t
          exact congrArg _ ih
        | cons x y =>
          show c :: (a ++ '\n' :: joinNL (x :: y)) = c :: t
          exact congrArg _ ih

theorem c7_extractShebang (rest : List Char) :
    extractShebang (String.mk (("#!/usr/bin/env node\n\x22use strict\x22;\n").data ++ rest))
      = ("#!/usr/bin/env node\n",
         String.mk (("\x22use strict\x22;").data ++ '\n' :: rest)) := by
  unfold extractShebang
  have hshape : (String.mk (("#!/usr/bin/env node\n\x22use strict\x22;\n").data ++ rest)).data
      = ("#!/usr/bin/env node").data ++ '\n' :: (("\x22use strict\x22;").data ++ '\n' :: rest) := rfl
  rw [hshape]
  rw [splitOn_no_sep_append '\n' _ _ (by decide)]
  have hscan : ∀ rlines, shebangScan (("#!/usr/bin/env node").data :: rlines)
      = some (("#!/usr/bin/env node").data, rlines) := fun rlines => rfl
  rw [hscan]
  dsimp only
  have hjoin := joinNL_splitOn (("\x22use strict\x22;").data ++ '\n' :: rest)
  rw [hjoin]
  rfl

theorem c7_extractDirectives (rest : List Char) (ast0 : StmtList)
    (hd : countDirectives ast0 = 0) :
    extractDirectivesString (.cons (.directive "\x22use strict\x22") ast0)
        (String.mk (("\x22use strict\x22;").data ++ '\n' :: rest))
      = ("\x22use strict\x22;\n", String.mk (rest.dropWhile isDirWS)) := by
  unfold extractDirectivesString
  have hcount : countDirectives (.cons (.directive "\x22use strict\x22") ast0) = 1 := by
    simp [countDirectives, hd]
  rw [hcount]
  rfl

/-- Semicolon-terminated case of the C7 characterization: for a source of
the form shebang + `"use strict";` + newline + rest whose tree starts with
the directive statement (and has no further leading directive), the
shebang and the directive each appear once, before the generated
scaffolding, and the rewritten body follows. -/
theorem c7_semi_eq (rest : List Char) (ast0 : StmtList) (pfx : String)
    (hd : countDirectives ast0 = 0)
    (hq : (walkReqSL pfx (.cons (.directive "\x22use strict\x22") ast0)
            initReqState).requires ≠ []) :
    rewriteRequiresAst pfx
        (String.mk (("#!/usr/bin/env node\n\x22use strict\x22;\n").data ++ rest))
        (.cons (.directive "\x22use strict\x22") ast0)
      = "#!/usr/bin/env node\n" ++ "\x22use strict\x22;\n"
        ++ infrastructure (walkReqSL pfx (.cons (.directive "\x22use strict\x22") ast0)
            initReqState).pathOrder
        ++ replaceRequireCalls (String.mk (rest.dropWhile isDirWS))
            (walkReqSL pfx (.cons (.directive "\x22use strict\x22") ast0)
              initReqState).requireCalls pfx := by
  unfold rewriteRequiresAst
  rw [c7_extractShebang rest]
  have he := c7_extractDirectives rest ast0 hd
  dsimp only
  rw [he]
  have hie : (walkReqSL pfx (.cons (.directive "\x22use strict\x22") ast0)
      initReqState).requires.isEmpty = false := by
    cases h : (walkReqSL pfx (.cons (.directive "\x22use strict\x22") ast0)
        initReqState).requires with
    | nil => exact absurd h hq
    | cons a t => rfl
  rw [hie]
  rfl



theorem c7b_extractShebang (rest : List Char) :
    extractShebang (String.mk (("#!/usr/bin/env node\n\x22use strict\x22\n").data ++ rest))
      = ("#!/usr/bin/env node\n",
         String.mk (("\x22use strict\x22").data ++ '\n' :: rest)) := by
  unfold extractShebang
  have hshape : (String.mk (("#!/usr/bin/env node\n\x22use strict\x22\n").data ++ rest)).data
      = ("#!/usr/bin/env node").data ++ '\n' :: (("\x22use strict\x22").data ++ '\n' :: rest) := rfl
  rw [hshape]
  rw [splitOn_no_sep_append '\n' _ _ (by decide)]
  have hscan : ∀ rlines, shebangScan (("#!/usr/bin/env node").data :: rlines)
      = some (("#!/usr/bin/env node").data, rlines) := fun rlines => rfl
  rw [hscan]
  dsimp only
  have hjoin := joinNL_splitOn (("\x22use strict\x22").data ++ '\n' :: rest)
  rw [hjoin]
  rfl

theorem c7b_extractDirectives (c : Char) (t : List Char) (ast0 : StmtList)
    (hd : countDirectives ast0 = 0) (hws : isDirWS c = false)
    (hq1 : c ≠ '"') (hq2 : c ≠ '\'') :
    extractDirectivesString (.cons (.directive "\x22use strict\x22") ast0)
        (String.mk (("\x22use strict\x22").data ++ '\n' :: c :: t))
      = ("", String.mk (c :: t)) := by
  have hcount : countDirectives (.cons (.directive "\x22use strict\x22") ast0) = 1 := by
    simp [countDirectives, hd]
  have h1 : ∀ (f : Nat) (acc : List Char),
      edsLoop (f + 1) (("\x22use strict\x22").data ++ '\n' :: c :: t) 0 1 acc
        = edsLoop f ('\n' :: c :: t) 0 1 acc := fun f acc => rfl
  have hdrop1 : List.dropWhile isDirWS ('\n' :: c :: t) = c :: t := by
    rw [List.dropWhile_cons, if_pos (by decide), List.dropWhile_cons,
      if_neg (by simp [hws])]
  have hdrop2 : List.dropWhile isDirWS (c :: t) = c :: t := by
    rw [List.dropWhile_cons, if_neg (by simp [hws])]
  have h2 : ∀ (f : Nat) (acc : List Char),
      edsLoop (f + 1) ('\n' :: c :: t) 0 1 acc = (acc, c :: t) := by
    intro f acc
    unfold edsLoop
    rw [if_neg (by omega)]
    dsimp only
    rw [hdrop1]
    dsimp only
    rw [if_neg (by simp [hq1, hq2])]
  have hlen12 : (("\x22use strict\x22").data).length = 12 := by decide
  have hlen : (("\x22use strict\x22").data ++ '\n' :: c :: t).length
      = (t.length + 13) + 1 := by
    simp only [List.length_append, List.length_cons, hlen12]
    omega
  unfold extractDirectivesString
  rw [hcount]
  dsimp only
  rw [if_neg (by omega)]
  show (String.mk (edsLoop ((("\x22use strict\x22").data ++ '\n' :: c :: t).length + 1)
        (("\x22use strict\x22").data ++ '\n' :: c :: t) 0 1 []).1,
      String.mk ((edsLoop ((("\x22use strict\x22").data ++ '\n' :: c :: t).length + 1)
        (("\x22use strict\x22").data ++ '\n' :: c :: t) 0 1 []).2.dropWhile isDirWS))
    = ("", String.mk (c :: t))
  rw [h1, hlen, h2]
  dsimp only
  rw [hdrop2]

/-- ASI case of the C7 characterization: when the leading directive has no
same-line semicolon (terminated by automatic semicolon insertion), the
byte scan consumes the quoted string without recording it, so the
directive is DELETED: the output is shebang + empty directives +
scaffolding + rewritten body, and the body starts right at the first
statement after the directive. -/
theorem c7_asi_eq (c : Char) (t : List Char) (ast0 : StmtList) (pfx : String)
    (hws : isDirWS c = false) (hq1 : c ≠ '"') (hq2 : c ≠ '\'')
    (hd : countDirectives ast0 = 0)
    (hq : (walkReqSL pfx (.cons (.directive "\x22use strict\x22") ast0)
            initReqState).requires ≠ []) :
    rewriteRequiresAst pfx
        (String.mk (("#!/usr/bin/env node\n\x22use strict\x22\n").data ++ c :: t))
        (.cons (.directive "\x22use strict\x22") ast0)
      = "#!/usr/bin/env node\n" ++ ""
        ++ infrastructure (walkReqSL pfx (.cons (.directive "\x22use strict\x22") ast0)
            initReqState).pathOrder
        ++ replaceRequireCalls (String.mk (c :: t))
            (walkReqSL pfx (.cons (.directive "\x22use strict\x22") ast0)
              initReqState).requireCalls pfx := by
  unfold rewriteRequiresAst
  rw [c7b_extractShebang (c :: t)]
  have he := c7b_extractDirectives c t ast0 hd hws hq1 hq2
  dsimp only
  rw [he]
  have hie : (walkReqSL pfx (.cons (.directive "\x22use strict\x22") ast0)
      initReqState).requires.isEmpty = false := by
    cases h : (walkReqSL pfx (.cons (.directive "\x22use strict\x22") ast0)
        initReqState).requires with
    | nil => exact absurd h hq
    | cons a tl => rfl
  rw [hie]
  rfl

/-- C7 counterexample, refuting the claim twice.  First, in `// c` newline
`"use strict";` newline body the directive prologue is preceded by a
comment; the AST still reports one directive, but the textual scan stops
at `/` and extracts nothing, so the directive ends up in the rewritten
body AFTER the generated scaffolding — not before it, as the claim states.
Second, in `"use strict"` newline body (the directive terminated by
automatic semicolon insertion, with no same-line `;`) the scan consumes
the quoted string, finds no semicolon, records nothing, and resumes after
it: the directive appears ZERO times in the output — it is silently
deleted, not preserved exactly once. -/
theorem c7_counterexample :
    (outC7 = infrastructure ["/m/x"]
        ++ "// c\n\x22use strict\x22;\nvar a = __cjs_require__(\x22/m/x\x22);"
      ∧ (subIdx ("const __cjs_imports__").data outC7.data).getD 0
          < (subIdx ("\x22use strict\x22;").data outC7.data).getD 0
      ∧ (subIdx ("\x22use strict\x22;").data outC7.data).isSome = true)
    ∧ (outC7b = infrastructure ["/m/x"]
        ++ "var a = __cjs_require__(\x22/m/x\x22);"
      ∧ subIdx ("\x22use strict\x22").data outC7b.data = none) :=
  ⟨⟨by decide, by decide, by decide⟩, by decide, by decide⟩

/-- C7 (amended): a leading shebang is always preserved exactly once,
before the generated scaffolding.  A leading directive prologue is
preserved exactly once before the scaffolding ONLY when it is not
preceded by comments and is terminated by a semicolon on its own line
(after optional spaces/tabs).  When comments precede the directive, the
byte scan extracts nothing and the directive remains in the body AFTER
the scaffolding; when the directive has no same-line semicolon (automatic
semicolon insertion), the scan consumes it without recording it and the
directive is DELETED from the output entirely.  The first conjunct is the
semicolon-terminated characterization, the second the ASI-deletion
characterization; the comment case is in the counterexample. -/
theorem c7_theorem :
    (∀ (rest : List Char) (ast0 : StmtList) (pfx : String),
       countDirectives ast0 = 0 →
       (walkReqSL pfx (.cons (.directive "\x22use strict\x22") ast0)
           initReqState).requires ≠ [] →
       rewriteRequiresAst pfx
           (String.mk (("#!/usr/bin/env node\n\x22use strict\x22;\n").data ++ rest))
           (.cons (.directive "\x22use strict\x22") ast0)
         = "#!/usr/bin/env node\n" ++ "\x22use strict\x22;\n"
           ++ infrastructure (walkReqSL pfx
               (.cons (.directive "\x22use strict\x22") ast0) initReqState).pathOrder
           ++ replaceRequireCalls (String.mk (rest.dropWhile isDirWS))
               (walkReqSL pfx (.cons (.directive "\x22use strict\x22") ast0)
                 initReqState).requireCalls pfx)
    ∧ (∀ (c : Char) (t : List Char) (ast0 : StmtList) (pfx : String),
       isDirWS c = false → c ≠ '"' → c ≠ '\'' →
       countDirectives ast0 = 0 →
       (walkReqSL pfx (.cons (.directive "\x22use strict\x22") ast0)
           initReqState).requires ≠ [] →
       rewriteRequiresAst pfx
           (String.mk (("#!/usr/bin/env node\n\x22use strict\x22\n").data ++ c :: t))
           (.cons (.directive "\x22use strict\x22") ast0)
         = "#!/usr/bin/env node\n" ++ ""
           ++ infrastructure (walkReqSL pfx
               (.cons (.directive "\x22use strict\x22") ast0) initReqState).pathOrder
           ++ replaceRequireCalls (String.mk (c :: t))
               (walkReqSL pfx (.cons (.directive "\x22use strict\x22") ast0)
                 initReqState).requireCalls pfx) :=
  ⟨fun rest ast0 pfx hd hq => c7_semi_eq rest ast0 pfx hd hq,
   fun c t ast0 pfx hws hq1 hq2 hd hq => c7_asi_eq c t ast0 pfx hws hq1 hq2 hd hq⟩

/-- C7 witness: both characterizations at concrete programs. -/
theorem c7_witness :
    (countDirectives astC1 = 0
      ∧ rewriteRequiresAst "/m/"
          (String.mk (("#!/usr/bin/env node\n\x22use strict\x22;\n").data
            ++ ("var a = require(\x22/m/x\x22);").data))
          (.cons (.directive "\x22use strict\x22") astC1)
        = "#!/usr/bin/env node\n" ++ "\x22use strict\x22;\n"
          ++ infrastructure (walkReqSL "/m/"
              (.cons (.directive "\x22use strict\x22") astC1) initReqState).pathOrder
          ++ replaceRequireCalls
              (String.mk ((("var a = require(\x22/m/x\x22);").data).dropWhile isDirWS))
              (walkReqSL "/m/"
                (.cons (.directive "\x22use strict\x22") astC1) initReqState).requireCalls
              "/m/")
    ∧ (isDirWS 'v' = false
      ∧ rewriteRequiresAst "/m/"
          (String.mk (("#!/usr/bin/env node\n\x22use strict\x22\n").data
            ++ 'v' :: ("ar a = require(\x22/m/x\x22);").data))
          (.cons (.directive "\x22use strict\x22") astC1)
        = "#!/usr/bin/env node\n" ++ ""
          ++ infrastructure (walkReqSL "/m/"
              (.cons (.directive "\x22use strict\x22") astC1) initReqState).pathOrder
          ++ replaceRequireCalls
              (String.mk ('v' :: ("ar a = require(\x22/m/x\x22);").data))
              (walkReqSL "/m/"
                (.cons (.directive "\x22use strict\x22") astC1) initReqState).requireCalls
              "/m/") :=
  ⟨⟨by decide, c7_theorem.1 (("var a = require(\x22/m/x\x22);").data) astC1 "/m/"
      (by decide) (by decide)⟩,
   ⟨by decide, c7_theorem.2 'v' (("ar a = require(\x22/m/x\x22);").data) astC1 "/m/"
      (by decide) (by decide) (by decide) (by decide) (by decide)⟩⟩

/-! ## Claim C8: the raw and the decoded qualifying tests -/

/-- Decoding distributes over a backslash-free prefix: the decoder copies
every non-backslash character verbatim, one at a time. -/
theorem unescapeList_append_nobs : ∀ (p rest : List Char),
    (∀ ch ∈ p, ch ≠ '\\') →
    unescapeList (p ++ rest) = p ++ unescapeList rest
  | [], rest, _ => by simp
  | c :: p, rest, h => by
    have hc : c ≠ '\\' := h c (by simp)
    have ih := unescapeList_append_nobs p rest (fun x hx => h x (by simp [hx]))
    unfold unescapeList
    have hlen : (c :: (p ++ rest)).length + 1 = ((p ++ rest).length + 1) + 1 := by
      simp
    rw [List.cons_append, hlen, consume_cons]
    have hu : uStep (c :: (p ++ rest)) = ([c], 1) := by
      unfold uStep
      dsimp only
      rw [if_pos hc]
    rw [hu]
    simp only [List.cons_append, List.nil_append, List.drop_succ_cons,
      List.drop_zero, List.cons.injEq, true_and]
    show consume uStep ((p ++ rest).length + 1) (p ++ rest) = p ++ unescapeList rest
    exact ih

/-- If the raw string starts with a backslash-free prefix, so does its
decoded value. -/
theorem goHasPre_unescape (pfx : String) (hbs : ∀ ch ∈ pfx.data, ch ≠ '\\')
    (s : String) (h : goHasPre s pfx = true) :
    goHasPre (unescapeJSString s) pfx = true := by
  unfold goHasPre at h ⊢
  have hpre : pfx.data <+: s.data := by
    rw [← List.isPrefixOf_iff_prefix]
    exact h
  obtain ⟨rem, hrem⟩ := hpre
  show pfx.data.isPrefixOf (unescapeList s.data) = true
  rw [← hrem, unescapeList_append_nobs pfx.data rem hbs]
  exact isPrefixOf_append_self _ _

/-- A call qualifying under the code's raw comparison also qualifies under
the claim's decoded comparison, provided the prefix has no backslash. -/
theorem isQualCall_imp_dec (pfx : String) (hbs : ∀ ch ∈ pfx.data, ch ≠ '\\')
    (e : Expr) (h : isQualCall pfx e = true) : isQualCallDec pfx e = true := by
  unfold isQualCall at h
  split at h
  · unfold isQualCallDec
    exact goHasPre_unescape pfx hbs _ h
  · exact absurd h (by simp)

mutual
theorem hasQualE_imp_dec (pfx : String) (hbs : ∀ ch ∈ pfx.data, ch ≠ '\\') :
    ∀ (e : Expr), hasQualE pfx e = true → hasQualDecE pfx e = true
  | .evar d, h => by simp [hasQualE] at h
  | .lit d, h => by simp [hasQualE] at h
  | .dot x y, h => by
    simp only [hasQualE, Bool.or_eq_true] at h
    simp only [hasQualDecE, Bool.or_eq_true]
    rcases h with h | h
    · exact Or.inl (hasQualE_imp_dec pfx hbs x h)
    · exact Or.inr (hasQualE_imp_dec pfx hbs y h)
  | .idx x y, h => by
    simp only [hasQualE, Bool.or_eq_true] at h
    simp only [hasQualDecE, Bool.or_eq_true]
    rcases h with h | h
    · exact Or.inl (hasQualE_imp_dec pfx hbs x h)
    · exact Or.inr (hasQualE_imp_dec pfx hbs y h)
  | .call x args, h => by
    simp only [hasQualE, Bool.or_eq_true] at h
    simp only [hasQualDecE, Bool.or_eq_true]
    rcases h with (h | h) | h
    · exact Or.inl (Or.inl (isQualCall_imp_dec pfx hbs _ h))
    · exact Or.inl (Or.inr (hasQualE_imp_dec pfx hbs x h))
    · exact Or.inr (hasQualEL_imp_dec pfx hbs args h)
  | .newE x args, h => by
    simp only [hasQualE, Bool.or_eq_true] at h
    simp only [hasQualDecE, Bool.or_eq_true]
    rcases h with h | h
    · exact Or.inl (hasQualE_imp_dec pfx hbs x h)
    · exact Or.inr (hasQualEL_imp_dec pfx hbs args h)
  | .binary op x y, h => by
    simp only [hasQualE, Bool.or_eq_true] at h
    simp only [hasQualDecE, Bool.or_eq_true]
    rcases h with h | h
    · exact Or.inl (hasQualE_imp_dec pfx hbs x h)
    · exact Or.inr (hasQualE_imp_dec pfx hbs y h)
  | .unary x, h => by
    simp only [hasQualE] at h
    simp only [hasQualDecE]
    exact hasQualE_imp_dec pfx hbs x h
  | .object props, h => by
    simp only [hasQualE] at h
    simp only [hasQualDecE]
    exact hasQualPL_imp_dec pfx hbs props h
  | .funcE b, h => by
    simp only [hasQualE] at h
    simp only [hasQualDecE]
    exact hasQualSL_imp_dec pfx hbs b h
  | .arrowE b, h => by
    simp only [hasQualE] at h
    simp only [hasQualDecE]
    exact hasQualSL_imp_dec pfx hbs b h
  | .methodE n g b, h => by
    simp only [hasQualE, Bool.or_eq_true] at h
    simp only [hasQualDecE, Bool.or_eq_true]
    rcases h with h | h
    · exact Or.inl (hasQualPN_imp_dec pfx hbs n h)
    · exact Or.inr (hasQualSL_imp_dec pfx hbs b h)

theorem hasQualPN_imp_dec (pfx : String) (hbs : ∀ ch ∈ pfx.data, ch ≠ '\\') :
    ∀ (n : PName), hasQualPN pfx n = true → hasQualDecPN pfx n = true
  | .computed e, h => by
    simp only [hasQualPN] at h
    simp only [hasQualDecPN]
    exact hasQualE_imp_dec pfx hbs e h
  | .missing, h => by simp [hasQualPN] at h
  | .unset, h => by simp [hasQualPN] at h
  | .plit d, h => by simp [hasQualPN] at h

theorem hasQualP_imp_dec (pfx : String) (hbs : ∀ ch ∈ pfx.data, ch ≠ '\\') :
    ∀ (p : Property), hasQualP pfx p = true → hasQualDecP pfx p = true
  | .mk n sp v, h => by
    simp only [hasQualP, Bool.or_eq_true] at h
    simp only [hasQualDecP, Bool.or_eq_true]
    rcases h with h | h
    · exact Or.inl (hasQualPN_imp_dec pfx hbs n h)
    · exact Or.inr (hasQualE_imp_dec pfx hbs v h)

theorem hasQualPL_imp_dec (pfx : String) (hbs : ∀ ch ∈ pfx.data, ch ≠ '\\') :
    ∀ (l : PropList), hasQualPL pfx l = true → hasQualDecPL pfx l = true
  | .nil, h => by simp [hasQualPL] at h
  | .cons p rest, h => by
    simp only [hasQualPL, Bool.or_eq_true] at h
    simp only [hasQualDecPL, Bool.or_eq_true]
    rcases h with h | h
    · exact Or.inl (hasQualP_imp_dec pfx hbs p h)
    · exact Or.inr (hasQualPL_imp_dec pfx hbs rest h)

theorem hasQualEL_imp_dec (pfx : String) (hbs : ∀ ch ∈ pfx.data, ch ≠ '\\') :
    ∀ (l : ExprList), hasQualEL pfx l = true → hasQualDecEL pfx l = true
  | .nil, h => by simp [hasQualEL] at h
  | .cons e rest, h => by
    simp only [hasQualEL, Bool.or_eq_true] at h
    simp only [hasQualDecEL, Bool.or_eq_true]
    rcases h with h | h
    · exact Or.inl (hasQualE_imp_dec pfx hbs e h)
    · exact Or.inr (hasQualEL_imp_dec pfx hbs rest h)

theorem hasQualS_imp_dec (pfx : String) (hbs : ∀ ch ∈ pfx.data, ch ≠ '\\') :
    ∀ (st : Stmt), hasQualS pfx st = true → hasQualDecS pfx st = true
  | .exprS e, h => by
    simp only [hasQualS] at h
    simp only [hasQualDecS]
    exact hasQualE_imp_dec pfx hbs e h
  | .varDecl inits, h => by
    simp only [hasQualS] at h
    simp only [hasQualDecS]
    exact hasQualEL_imp_dec pfx hbs inits h
  | .retS e, h => by
    simp only [hasQualS] at h
    simp only [hasQualDecS]
    exact hasQualE_imp_dec pfx hbs e h
  | .retNone, h => by simp [hasQualS] at h
  | .directive d, h => by simp [hasQualS] at h
  | .comment d, h => by simp [hasQualS] at h
  | .importS a b, h => by simp [hasQualS] at h
  | .ifS cnd thn els, h => by
    simp only [hasQualS, Bool.or_eq_true] at h
    simp only [hasQualDecS, Bool.or_eq_true]
    rcases h with (h | h) | h
    · exact Or.inl (Or.inl (hasQualE_imp_dec pfx hbs cnd h))
    · exact Or.inl (Or.inr (hasQualSL_imp_dec pfx hbs thn h))
    · exact Or.inr (hasQualSL_imp_dec pfx hbs els h)
  | .throwS e, h => by
    simp only [hasQualS] at h
    simp only [hasQualDecS]
    exact hasQualE_imp_dec pfx hbs e h
  | .blockS b, h => by
    simp only [hasQualS] at h
    simp only [hasQualDecS]
    exact hasQualSL_imp_dec pfx hbs b h
  | .funcS b, h => by
    simp only [hasQualS] at h
    simp only [hasQualDecS]
    exact hasQualSL_imp_dec pfx hbs b h

theorem hasQualSL_imp_dec (pfx : String) (hbs : ∀ ch ∈ pfx.data, ch ≠ '\\') :
    ∀ (l : StmtList), hasQualSL pfx l = true → hasQualDecSL pfx l = true
  | .nil, h => by simp [hasQualSL] at h
  | .cons st rest, h => by
    simp only [hasQualSL, Bool.or_eq_true] at h
    simp only [hasQualDecSL, Bool.or_eq_true]
    rcases h with h | h
    · exact Or.inl (hasQualS_imp_dec pfx hbs st h)
    · exact Or.inr (hasQualSL_imp_dec pfx hbs rest h)
end

/-- C8 counterexample: with prefix `\x` (backslash-x) the source
`var a = f("\x2Fa");` contains NO call whose decoded (§4.1) argument value
starts with the prefix — the decoded value is `/a` — yet the code compares
the raw quote-stripped token `\x2Fa`, which does start with `\x`, so
`RewriteRequires` rewrites the source instead of returning it unchanged:
the claim's hypothesis holds but its conclusion fails. -/
theorem c8_counterexample :
    hasQualDecSL "\\x" astC8x = false
      ∧ unescapeJSString (reqStrip "\"\\x2Fa\"") = "/a"
      ∧ hasQualSL "\\x" astC8x = true
      ∧ rewriteRequiresAst "\\x" srcC8x astC8x ≠ srcC8x :=
  ⟨by decide, by decide, by decide, by decide⟩

/-- C8 (amended): the visitor compares the quote-stripped RAW token text —
`extractStringLiteral` in requires.go never unescapes — so the unchanged-
output guarantee holds for the raw reading of "value": a parseable source
with no call expression having exactly one string-literal argument whose
quote-stripped raw value starts with the prefix is returned byte-for-byte
unchanged, shebang and directives included (first conjunct).  The claim's
decoded reading of "value" is only guaranteed for prefixes containing no
backslash, where raw-qualifying implies decoded-qualifying (second
conjunct); a backslash-containing prefix can rewrite a source none of
whose decoded values starts with it (see the counterexample). -/
theorem c8_theorem :
    (∀ (pfx source : String) (ast : StmtList),
       hasQualSL pfx ast = false →
       rewriteRequiresAst pfx source ast = source)
    ∧ (∀ (pfx source : String) (ast : StmtList),
       (∀ ch ∈ pfx.data, ch ≠ '\\') →
       hasQualDecSL pfx ast = false →
       rewriteRequiresAst pfx source ast = source) :=
  ⟨fun pfx source ast h => rewrite_no_matches pfx source ast h,
   fun pfx source ast hbs h => rewrite_no_matches pfx source ast (by
     cases hq : hasQualSL pfx ast with
     | false => rfl
     | true => exact absurd (hasQualSL_imp_dec pfx hbs ast hq) (by simp [h]))⟩

/-- C8 witness: both parts at concrete inputs. -/
theorem c8_witness :
    (hasQualSL "/m/" astNoCall = false
      ∧ rewriteRequiresAst "/m/" "var x = 1;" astNoCall = "var x = 1;")
    ∧ (hasQualDecSL "/m/" astNoCall = false
      ∧ rewriteRequiresAst "/m/" "var y = 2;" astNoCall = "var y = 2;") :=
  ⟨⟨by decide, c8_theorem.1 "/m/" "var x = 1;" astNoCall (by decide)⟩,
   ⟨by decide, c8_theorem.2 "/m/" "var y = 2;" astNoCall (by decide) (by decide)⟩⟩

end Cjs
